import Mathlib

/- Verification development for the phml markup-templating compiler.

   Modelled source files:
   - src/phml/core/compile.py      (v1 compiler core: Compiler.compile,
     replace_components, apply_conditions / process_conditions /
     execute_conditions, apply_python)
   - src/phml/v2/steps/loops.py    (v2 loop expander: step_expand_loop_tags,
     replace_default, fallback handling)
   - src/phml/compiler/__init__.py (v2 orchestrator)

   Expression/statement evaluation of embedded Python (virtual_python's
   get_vp_result / process_vp_blocks, v2's exec_embedded) is an external
   capability per spec section 4.2 (Evaluator Gateway); it is modelled by
   oracle function parameters.  Python dictionaries are modelled as
   association lists with CPython update semantics (existing keys keep their
   position, new keys are appended).  Python object identity, which the
   source relies on for `children.remove(child)` / `children.index(child)`,
   is modelled by a numeric `id` field on element nodes; clones produced by
   `deepcopy` receive fresh ids. -/

namespace Phml

mutual
/-- Python-like runtime values flowing through the evaluator gateway and
    stored in element context maps (`locals`).  `vnodes` covers the
    `children` binding that replace_components stores into a component's
    locals (compile.py line 282). -/
inductive Val where
  | vint (n : Int)
  | vstr (s : String)
  | vbool (b : Bool)
  | vnone
  | vlist (l : List Val)
  | vnodes (ns : List VNode)

/-- Values of v1 element properties: the parser produces strings or
    booleans; apply_python may overwrite a property with an arbitrary
    evaluator result (compile.py lines 365-366), covered by `pval`. -/
inductive PVal where
  | pstr (s : String)
  | pbool (b : Bool)
  | pval (v : Val)

/-- v1 phml tree nodes (phml.nodes): an Element has a tag, a properties
    dict, a locals (context) dict, an optional source position and a child
    list; Text/Comment carry a string; DocType is a marker node.  The
    parent back-reference is implicit (ownership is parent -> children).
    The extra `id` field stands for Python object identity. -/
inductive VNode where
  | el (id : Nat) (tag : String) (props : List (String × PVal))
      (locs : List (String × Val)) (pos : Option (Nat × Nat))
      (children : List VNode)
  | text (value : String)
  | comment (value : String)
  | doctype
end

/-- Name-to-value environments handed to the evaluator gateway. -/
abbrev Ctx := List (String × Val)

/-- Oracle for `get_vp_result(code, **env)`: evaluates a Python expression
    under an environment.  Total: claims about evaluation failure inside
    conditionals are not in scope. -/
abbrev Evaluator := String → Ctx → Val

/-- Oracle for the per-iteration bindings produced by executing the
    generated for-loop of compile.py lines 502-524: given the raw loop
    property and the exec environment it yields, for each iteration, the
    dict binding the loop captures to that iteration's values. -/
abbrev IterOracle := String → Ctx → List Ctx

/-- Oracle for `process_vp_blocks(text, vp, **env)`: substitutes the
    inline `{ ... }` python blocks of a string under an environment. -/
abbrev Subst := String → Ctx → String

/-- Association-list lookup, Python `d[k]` / `k in d`. -/
def alookup (k : String) : List (String × β) → Option β
  | [] => none
  | (k', v) :: rest => if k' = k then some v else alookup k rest

/-- Association-list key removal, Python `del d[k]`. -/
def aerase (k : String) (m : List (String × β)) : List (String × β) :=
  m.filter (fun p => p.1 ≠ k)

/-- Association-list store, Python `d[k] = v`: an existing key keeps its
    position, a new key is appended (CPython dict semantics). -/
def ainsert (k : String) (v : β) : List (String × β) → List (String × β)
  | [] => [(k, v)]
  | (k', v') :: rest => if k' = k then (k', v) :: rest else (k', v') :: ainsert k v rest

/-- Python `d.update(u)` / `{**d, **u}`: store every entry of `u` into `d`
    in order. -/
def aupd (m u : List (String × β)) : List (String × β) :=
  u.foldl (fun acc p => ainsert p.1 p.2 acc) m

@[simp] theorem alookup_nil (k : String) : alookup (β := β) k [] = none := rfl

theorem alookup_cons (k k' : String) (v : β) (m : List (String × β)) :
    alookup k ((k', v) :: m) = if k' = k then some v else alookup k m := rfl

theorem alookup_ainsert (k x : String) (v : β) (m : List (String × β)) :
    alookup x (ainsert k v m) = if k = x then some v else alookup x m := by
  induction m with
  | nil => simp [ainsert, alookup]
  | cons p rest ih =>
    obtain ⟨k', v'⟩ := p
    by_cases hk : k' = k
    · subst hk
      by_cases hx : k' = x
      · subst hx
        simp [ainsert, alookup]
      · simp [ainsert, alookup, hx]
    · by_cases hx : k' = x
      · subst hx
        have hkx : ¬ k = k' := fun h => hk h.symm
        simp [ainsert, alookup, hk, hkx]
      · simp [ainsert, alookup, hk, hx, ih]

theorem alookup_aupd_not_mem (x : String) (m u : List (String × β))
    (h : x ∉ u.map Prod.fst) : alookup x (aupd m u) = alookup x m := by
  induction u generalizing m with
  | nil => rfl
  | cons p rest ih =>
    obtain ⟨k, v⟩ := p
    simp only [List.map_cons, List.mem_cons, not_or] at h
    have step : aupd m ((k, v) :: rest) = aupd (ainsert k v m) rest := rfl
    rw [step, ih _ h.2, alookup_ainsert, if_neg (fun hh => h.1 hh.symm)]

theorem alookup_aupd_mem (x : String) (v : β) (m u : List (String × β))
    (hnd : (u.map Prod.fst).Nodup) (h : alookup x u = some v) :
    alookup x (aupd m u) = some v := by
  induction u generalizing m with
  | nil => simp [alookup] at h
  | cons p rest ih =>
    obtain ⟨k, w⟩ := p
    simp only [List.map_cons, List.nodup_cons] at hnd
    have step : aupd m ((k, w) :: rest) = aupd (ainsert k w m) rest := rfl
    rw [alookup_cons] at h
    by_cases hk : k = x
    · rw [if_pos hk] at h
      obtain rfl : w = v := Option.some.inj h
      rw [step, alookup_aupd_not_mem _ _ _ (hk ▸ hnd.1), alookup_ainsert, if_pos hk]
    · rw [if_neg hk] at h
      rw [step, ih _ hnd.2 h]

/-- Python truthiness of a value (used for `if result:`). -/
def Val.truthy : Val → Bool
  | .vint n => n != 0
  | .vstr s => s != ""
  | .vbool b => b
  | .vnone => false
  | .vlist l => !l.isEmpty
  | .vnodes ns => !ns.isEmpty

/-- Python `str(...)` of a value, approximated; used only where the source
    stringifies a property before the interpolation-marker regex test. -/
def Val.pyStr : Val → String
  | .vint n => toString n
  | .vstr s => s
  | .vbool b => if b then "True" else "False"
  | .vnone => "None"
  | .vlist _ => "[...]"
  | .vnodes _ => "[...]"

/-- Python `str(...)` of a property value. -/
def PVal.pyStr : PVal → String
  | .pstr s => s
  | .pbool b => if b then "True" else "False"
  | .pval v => v.pyStr

/-- Match of the regex `.*\{.*\}.*` (compile.py lines 276, 368, 378): the
    string contains a `\x7b` with a `\x7d` somewhere after it. -/
def containsMarker (s : String) : Bool :=
  (((s.toList.dropWhile (fun c => c != '\x7b')).drop 1).contains '\x7d')

/-- Python `str.strip()`: drop leading and trailing whitespace. -/
def pyStrip (s : String) : String :=
  String.mk (((s.toList.dropWhile Char.isWhitespace).reverse.dropWhile
    Char.isWhitespace).reverse)

/-- Removal of all braces from a condition value,
    `sub(r"\{|\}", "", value.strip())` (compile.py lines 538, 557). -/
def prepCondition (s : String) : String :=
  String.mk (((pyStrip s).toList.filter (fun c => c != '\x7b' && c != '\x7d')))

/-- One left-to-right pass of `sub(r"for |:", "", s)` (compile.py line 490). -/
def subForColon : List Char → List Char
  | 'f' :: 'o' :: 'r' :: ' ' :: rest => subForColon rest
  | ':' :: rest => subForColon rest
  | c :: rest => c :: subForColon rest
  | [] => []

/-- Substring containment over character lists. -/
def listContainsSub (pat : List Char) : List Char → Bool
  | [] => decide (pat = [])
  | c :: rest => pat.isPrefixOf (c :: rest) || listContainsSub pat rest

/-- Directive attribute names recognized by py_conditions (compile.py lines
    386-401) and __has_py_condition (lines 307-320), with
    condition_prefix = "@". -/
def pyConditionNames : List String :=
  ["py-for", "py-if", "py-elif", "py-else", "@if", "@elif", "@else", "@for"]

/-- Loop directive spellings (compile.py line 483). -/
def forNames : List String := ["py-for", "@for"]

/-- If directive spellings (compile.py line 529). -/
def ifNames : List String := ["py-if", "@if"]

/-- Elif directive spellings (compile.py line 547). -/
def elifNames : List String := ["py-elif", "@elif"]

/-- Else directive spellings (compile.py line 571). -/
def elseNames : List String := ["py-else", "@else"]

/-- valid_prev["py-elif"] (compile.py line 439): names an elif may follow. -/
def validPrevElif : List String := ["py-if", "py-elif", "@if", "@elif"]

/-- valid_prev["py-else"] (compile.py line 440): names an else may follow. -/
def validPrevElse : List String := ["py-if", "py-elif", "@if", "@elif"]

/-- Object identity of a node (elements only; only top-level identity is
    consulted by execute_conditions). -/
def VNode.idOf : VNode → Option Nat
  | .el i _ _ _ _ _ => some i
  | _ => none

/-- First node of the list with the given identity. -/
def getById (i : Nat) : List VNode → Option VNode
  | [] => none
  | n :: rest => if n.idOf = some i then some n else getById i rest

/-- Python `children.remove(child)`: drop the first node with the given
    identity, `none` when absent (ValueError). -/
def removeById (i : Nat) : List VNode → Option (List VNode)
  | [] => none
  | n :: rest =>
    if n.idOf = some i then some rest
    else (removeById i rest).map (n :: ·)

/-- Python `children.index(child)`: position of the first node with the
    given identity. -/
def indexById (i : Nat) : List VNode → Option Nat
  | [] => none
  | n :: rest => if n.idOf = some i then some 0 else (indexById i rest).map (· + 1)

/-- In-place mutation of the first node with the given identity. -/
def updateById (i : Nat) (f : VNode → VNode) : List VNode → List VNode
  | [] => []
  | n :: rest => if n.idOf = some i then f n :: rest else n :: updateById i f rest

/-- Python `children[:i] + new + children[i+1:]` (compile.py line 507). -/
def spliceAt (i : Nat) (new l : List VNode) : List VNode :=
  l.take i ++ new ++ l.drop (i + 1)

/-- Identities of the top-level element nodes of a child list. -/
def topIds (l : List VNode) : List Nat := l.filterMap VNode.idOf

/-- Removal of a directive property from an element (`del
    child.properties[condition]`). -/
def erasePropN (name : String) : VNode → VNode
  | .el i tag props locs pos ch => .el i tag (aerase name props) locs pos ch
  | n => n

/-- py_conditions(node) (compile.py lines 386-401): the directive keys
    among a node's properties, in property order. -/
def py_conditions (props : List (String × PVal)) : List String :=
  (props.map Prod.fst).filter (fun k => k ∈ pyConditionNames)

/-- Scan phase of process_conditions (compile.py lines 403-411): collect
    (directive, node) pairs over the element children in order; more than
    one directive on one element is an error. -/
def scan_conditions : List VNode → Except String (List (String × Nat))
  | [] => .ok []
  | .el i _ props _ _ _ :: rest =>
    match py_conditions props with
    | [] => scan_conditions rest
    | [c] => do
      let cs ← scan_conditions rest
      .ok ((c, i) :: cs)
    | _ => .error "There can only be one python condition statement at a time"
  | _ :: rest => scan_conditions rest

/-- State threaded through execute_conditions: the scope's (mutated) child
    list, a fresh-identity counter for deepcopy clones, the `first_cond`
    flag, the `previous` pair, and a log of the node identities whose
    condition attribute was evaluated via get_vp_result. -/
structure CondSt where
  children : List VNode
  fresh : Nat
  firstCond : Bool
  prevName : String
  prevVal : Bool
  evalLog : List Nat

/-- clocals of the py-if / py-elif branches (compile.py lines 530-535,
    548-552): kwargs (already updated with vp.locals), updated with the
    locals of every element ancestor root-to-parent (`anc`), updated with
    the child's own locals. -/
def clocalsOf (kw' anc : Ctx) (locs : List (String × Val)) : Ctx :=
  aupd (aupd kw' anc) locs

/-- py-if branch of execute_conditions (compile.py lines 529-546). -/
def stepIf (ev : Evaluator) (kw' anc : Ctx) (st : CondSt) (name : String)
    (cid : Nat) (props : List (String × PVal)) (locs : List (String × Val)) :
    Except String CondSt :=
  match alookup name props with
  | none => .error "KeyError: condition property"
  | some pv =>
    match pv with
    | .pstr s =>
      if (ev (prepCondition s) (clocalsOf kw' anc locs)).truthy then
        .ok { st with children := updateById cid (erasePropN name) st.children,
                      prevName := "@if", prevVal := true, firstCond := true,
                      evalLog := st.evalLog ++ [cid] }
      else
        match removeById cid st.children with
        | some ch' =>
          .ok { st with children := ch', prevName := "@if", prevVal := false,
                        firstCond := true, evalLog := st.evalLog ++ [cid] }
        | none => .error "ValueError: children.remove"
    | _ => .error "AttributeError: strip on non-string"

/-- py-elif branch of execute_conditions (compile.py lines 547-570).  When
    the chain is already resolved (`previous[1]` true) the node is removed
    without evaluating its condition and without touching `previous`. -/
def stepElif (ev : Evaluator) (kw' anc : Ctx) (st : CondSt) (name : String)
    (cid : Nat) (props : List (String × PVal)) (locs : List (String × Val)) :
    Except String CondSt :=
  if st.prevName ∈ validPrevElif ∧ st.firstCond then
    if st.prevVal then
      match removeById cid st.children with
      | some ch' => .ok { st with children := ch' }
      | none => .error "ValueError: children.remove"
    else
      match alookup name props with
      | none => .error "KeyError: condition property"
      | some pv =>
        match pv with
        | .pstr s =>
          if (ev (prepCondition s) (clocalsOf kw' anc locs)).truthy then
            .ok { st with children := updateById cid (erasePropN name) st.children,
                          prevName := "@elif", prevVal := true,
                          evalLog := st.evalLog ++ [cid] }
          else
            match removeById cid st.children with
            | some ch' =>
              .ok { st with children := ch', prevName := "@elif",
                            prevVal := false, evalLog := st.evalLog ++ [cid] }
            | none => .error "ValueError: children.remove"
        | _ => .error "AttributeError: strip on non-string"
  else .error "py-elif must follow a py-if"

/-- py-else branch of execute_conditions (compile.py lines 571-582): the
    else is kept (directive stripped) exactly when the chain is still
    unresolved; `first_cond` is reset either way; on removal `previous` is
    left untouched. -/
def stepElse (st : CondSt) (name : String) (cid : Nat) : Except String CondSt :=
  if st.prevName ∈ validPrevElse ∧ st.firstCond then
    if st.prevVal then
      match removeById cid st.children with
      | some ch' => .ok { st with children := ch', firstCond := false }
      | none => .error "ValueError: children.remove"
    else
      .ok { st with children := updateById cid (erasePropN name) st.children,
                    prevName := "@else", prevVal := true, firstCond := false }
  else .error "py-else must follow a py-if"

/-- py-for branch of execute_conditions (compile.py lines 483-528): the
    loop element (condition deleted, position cleared) is deepcopied once
    per iteration with locals set to the iteration's captures updated with
    clocals (ancestor locals then own locals; kwargs are NOT part of
    clocals here, lines 484-488), and the clones replace the loop element
    in the child list.  Clones receive fresh identities.  The generated
    exec of lines 502-524 is the iteration oracle; its environment exposes
    kwargs.  The capture-name parse (lines 490-498) requires an "in" in
    the cleaned loop expression. -/
def stepFor (io : IterOracle) (kw' anc : Ctx) (st : CondSt) (name : String)
    (cid : Nat) (tag : String) (props : List (String × PVal))
    (locs : List (String × Val)) (ch : List VNode) : Except String CondSt :=
  match alookup name props with
  | none => .error "KeyError: condition property"
  | some pv =>
    match pv with
    | .pstr raw =>
      if !(listContainsSub ['i', 'n'] (subForColon raw.toList)) then
        .error "AttributeError: malformed loop expression"
      else
        match indexById cid st.children with
        | none => .error "ValueError: children.index"
        | some insert =>
          .ok { st with children := spliceAt insert
                          ((io raw kw').enum.map (fun p =>
                            VNode.el (st.fresh + p.1) tag (aerase name props)
                              (aupd p.2 (aupd anc locs)) none ch))
                          st.children,
                        fresh := st.fresh + (io raw kw').length,
                        prevName := "@for", prevVal := false,
                        firstCond := false }
    | _ => .error "TypeError: loop expression is not a string"

/-- One iteration of the dispatch loop of execute_conditions (compile.py
    lines 482-584): branch order for / if / elif / else / error, operating
    on the condition's node looked up by identity in the current child
    list. -/
def execute_condition_step (ev : Evaluator) (io : IterOracle) (kw' anc : Ctx)
    (st : CondSt) (ce : String × Nat) : Except String CondSt :=
  match getById ce.2 st.children with
  | some (.el _ tag props locs _ ch) =>
    if ce.1 ∈ forNames then stepFor io kw' anc st ce.1 ce.2 tag props locs ch
    else if ce.1 ∈ ifNames then stepIf ev kw' anc st ce.1 ce.2 props locs
    else if ce.1 ∈ elifNames then stepElif ev kw' anc st ce.1 ce.2 props locs
    else if ce.1 ∈ elseNames then stepElse st ce.1 ce.2
    else .error "Unkown condition property"
  | _ => .error "stale condition node"

/-- execute_conditions (compile.py lines 416-586): kwargs is updated with
    vp.locals once (line 478), the state starts with previous =
    ("@for", True) and first_cond = False (lines 475-476), and the
    condition pairs are processed in order. -/
def execute_conditions (ev : Evaluator) (io : IterOracle) (anc kw vpl : Ctx)
    (cs : List (String × Nat)) (children : List VNode) (f0 : Nat) :
    Except String CondSt :=
  cs.foldlM (execute_condition_step ev io (aupd kw vpl) anc)
    ⟨children, f0, false, "@for", true, []⟩

/-- process_conditions (compile.py lines 385-413) for one scope: scan the
    children for condition pairs, then execute them over the child list. -/
def process_conditions (ev : Evaluator) (io : IterOracle) (anc kw vpl : Ctx)
    (children : List VNode) (f0 : Nat) : Except String CondSt := do
  let cs ← scan_conditions children
  execute_conditions ev io anc kw vpl cs children f0

/-- Truth value computed for a condition entry against a child list: the
    node's directive value, brace-stripped, evaluated under clocals, then
    tested for truthiness (compile.py lines 537-539). -/
def condTrueOf (ev : Evaluator) (kw' anc : Ctx) (children : List VNode) :
    String × Nat → Bool
  | (nm, cid) =>
    match getById cid children with
    | some (.el _ _ props locs _ _) =>
      match alookup nm props with
      | some (.pstr s) => (ev (prepCondition s) (clocalsOf kw' anc locs)).truthy
      | _ => false
    | _ => false

/-- Position of the first-true member of a conditional chain: an else
    member counts as unconditionally true; `none` when every condition is
    false and no else is present. -/
def chainPick (ev : Evaluator) (kw' anc : Ctx) (children : List VNode) :
    List (String × Nat) → Option Nat
  | [] => none
  | ce :: rest =>
    if ce.1 ∈ elseNames ∨ condTrueOf ev kw' anc children ce then some 0
    else (chainPick ev kw' anc children rest).map (· + 1)

/-- Shape of the tail of an if/elif*/else? chain: elif entries, optionally
    terminated by a single else entry. -/
def BodyWF : List (String × Nat) → Prop
  | [] => True
  | ce :: rest => (ce.1 ∈ elifNames ∧ BodyWF rest) ∨ (ce.1 ∈ elseNames ∧ rest = [])

/-- Wellformedness of a condition entry against a child list: the entry's
    node is present (under its own identity) and carries the directive
    with a string value. -/
def StrCond (children : List VNode) (ce : String × Nat) : Prop :=
  ∃ tag props locs pos ch s,
    getById ce.2 children = some (.el ce.2 tag props locs pos ch) ∧
    alookup ce.1 props = some (.pstr s)

/-- Invariant carried through execute_conditions: top-level identities are
    pairwise distinct and below the fresh-identity counter. -/
def GoodSt (st : CondSt) : Prop :=
  (topIds st.children).Nodup ∧ ∀ i ∈ topIds st.children, i < st.fresh

theorem getById_id {i : Nat} {l : List VNode} {n : VNode}
    (h : getById i l = some n) : n.idOf = some i := by
  induction l with
  | nil => simp [getById] at h
  | cons m rest ih =>
    rw [getById] at h
    split at h
    · cases h
      assumption
    · exact ih h

theorem getById_append (i : Nat) (a b : List VNode) :
    getById i (a ++ b) = (getById i a).orElse (fun _ => getById i b) := by
  induction a with
  | nil => simp [getById]
  | cons n rest ih =>
    rw [List.cons_append, getById, getById]
    split
    · rfl
    · exact ih

@[simp] theorem topIds_nil : topIds [] = [] := rfl

@[simp] theorem topIds_cons (n : VNode) (l : List VNode) :
    topIds (n :: l) = match n.idOf with
      | some i => i :: topIds l
      | none => topIds l := by
  simp only [topIds, List.filterMap_cons]
  cases n.idOf <;> rfl

theorem topIds_append (a b : List VNode) :
    topIds (a ++ b) = topIds a ++ topIds b := by
  simp [topIds, List.filterMap_append]

theorem getById_eq_none_iff {i : Nat} {l : List VNode} :
    getById i l = none ↔ i ∉ topIds l := by
  induction l with
  | nil => simp [getById]
  | cons n rest ih =>
    rw [getById]
    constructor
    · intro h
      split at h
      · cases h
      · rename_i hni
        rw [topIds_cons]
        cases hcase : n.idOf with
        | none => simpa [ih] using h
        | some j =>
          simp only [hcase] at hni ⊢
          intro hmem
          rcases List.mem_cons.mp hmem with rfl | hmem
          · exact hni rfl
          · exact (ih.mp h) hmem
    · intro h
      rw [topIds_cons] at h
      split
      · rename_i hni
        exfalso
        apply h
        rw [hni]
        exact List.mem_cons_self _ _
      · apply ih.mpr
        intro hmem
        apply h
        cases hcase : n.idOf
        · simpa [hcase] using hmem
        · simp only [hcase]
          exact List.mem_cons_of_mem _ hmem

theorem getById_isSome_of_mem {i : Nat} {l : List VNode}
    (h : i ∈ topIds l) : (getById i l).isSome := by
  cases hg : getById i l with
  | none => exact absurd h (getById_eq_none_iff.mp hg)
  | some n => rfl

theorem removeById_decomp {i : Nat} {l l' : List VNode}
    (h : removeById i l = some l') :
    ∃ la n lb, l = la ++ n :: lb ∧ l' = la ++ lb ∧ n.idOf = some i ∧
      getById i la = none := by
  induction l generalizing l' with
  | nil => simp [removeById] at h
  | cons m rest ih =>
    rw [removeById] at h
    split at h
    · rename_i hm
      cases h
      exact ⟨[], m, rest, rfl, rfl, hm, rfl⟩
    · rename_i hm
      cases hr : removeById i rest with
      | none => rw [hr] at h; cases h
      | some r' =>
        rw [hr] at h
        cases h
        obtain ⟨la, n, lb, h1, h2, h3, h4⟩ := ih hr
        refine ⟨m :: la, n, lb, by simp [h1], by simp [h2], h3, ?_⟩
        rw [getById]
        simp [hm, h4]

theorem removeById_isSome_of_getById {i : Nat} {l : List VNode}
    (h : (getById i l).isSome) : (removeById i l).isSome := by
  induction l with
  | nil => simp [getById] at h
  | cons m rest ih =>
    rw [getById] at h
    rw [removeById]
    split at h
    · rename_i hm
      simp [hm]
    · rename_i hm
      simp only [hm, if_neg]
      cases hr : removeById i rest with
      | none => rw [hr] at ih; exact absurd (ih h) (by simp)
      | some r' => simp

theorem indexById_decomp {i : Nat} {l : List VNode} {k : Nat}
    (h : indexById i l = some k) :
    ∃ la n lb, l = la ++ n :: lb ∧ la.length = k ∧ n.idOf = some i ∧
      getById i la = none := by
  induction l generalizing k with
  | nil => simp [indexById] at h
  | cons m rest ih =>
    rw [indexById] at h
    split at h
    · rename_i hm
      cases h
      exact ⟨[], m, rest, rfl, rfl, hm, rfl⟩
    · rename_i hm
      cases hr : indexById i rest with
      | none => rw [hr] at h; cases h
      | some k' =>
        rw [hr] at h
        cases h
        obtain ⟨la, n, lb, h1, h2, h3, h4⟩ := ih hr
        refine ⟨m :: la, n, lb, by simp [h1], by simp [h2], h3, ?_⟩
        rw [getById]
        simp [hm, h4]

theorem indexById_isSome_of_getById {i : Nat} {l : List VNode}
    (h : (getById i l).isSome) : (indexById i l).isSome := by
  induction l with
  | nil => simp [getById] at h
  | cons m rest ih =>
    rw [getById] at h
    rw [indexById]
    split at h
    · rename_i hm
      simp [hm]
    · rename_i hm
      simp only [hm, if_neg]
      cases hr : indexById i rest with
      | none => rw [hr] at ih; exact absurd (ih h) (by simp)
      | some k' => simp

theorem erasePropN_idOf (nm : String) (n : VNode) :
    (erasePropN nm n).idOf = n.idOf := by
  cases n <;> rfl

theorem getById_updateById_ne {i j : Nat} (hne : j ≠ i) (f : VNode → VNode)
    (hf : ∀ n, (f n).idOf = n.idOf) (l : List VNode) :
    getById j (updateById i f l) = getById j l := by
  induction l with
  | nil => rfl
  | cons m rest ih =>
    rw [updateById]
    split
    · rename_i hm
      rw [getById, getById, hf m, hm]
      have hji : ¬ (some i = some j) := by simpa using fun h => hne h.symm
      rw [if_neg hji, if_neg hji]
    · rw [getById, getById]
      split
      · rfl
      · exact ih

theorem getById_updateById_self {i : Nat} {l : List VNode} {n : VNode}
    (h : getById i l = some n) (f : VNode → VNode)
    (hf : ∀ m, (f m).idOf = m.idOf) :
    getById i (updateById i f l) = some (f n) := by
  induction l with
  | nil => simp [getById] at h
  | cons m rest ih =>
    rw [getById] at h
    rw [updateById]
    split at h
    · rename_i hm
      cases h
      rw [if_pos hm, getById, hf, if_pos hm]
    · rename_i hm
      rw [if_neg hm, getById, if_neg hm]
      exact ih h

theorem topIds_updateById (i : Nat) (f : VNode → VNode)
    (hf : ∀ n, (f n).idOf = n.idOf) (l : List VNode) :
    topIds (updateById i f l) = topIds l := by
  induction l with
  | nil => rfl
  | cons m rest ih =>
    rw [updateById]
    split
    · rw [topIds_cons, topIds_cons, hf]
    · rw [topIds_cons, topIds_cons]
      cases m.idOf <;> simp [ih]

theorem remove_facts {i : Nat} {l l' : List VNode} {f : Nat}
    (h : removeById i l = some l')
    (hnd : (topIds l).Nodup) (hbd : ∀ j ∈ topIds l, j < f) :
    (topIds l').Nodup ∧ (∀ j ∈ topIds l', j < f) ∧ i ∉ topIds l' ∧
      (∀ j, j ≠ i → getById j l' = getById j l) := by
  obtain ⟨la, n, lb, rfl, rfl, hn, -⟩ := removeById_decomp h
  have hto : topIds (la ++ n :: lb) = topIds la ++ i :: topIds lb := by
    rw [topIds_append, topIds_cons, hn]
  have hto' : topIds (la ++ lb) = topIds la ++ topIds lb := topIds_append _ _
  rw [hto] at hnd hbd
  have hsub : (topIds la ++ topIds lb).Sublist (topIds la ++ i :: topIds lb) :=
    List.Sublist.append_left (List.sublist_cons_self i (topIds lb)) _
  refine ⟨?_, ?_, ?_, ?_⟩
  · rw [hto']
    exact hnd.sublist hsub
  · intro j hj
    rw [hto'] at hj
    exact hbd j (hsub.mem hj)
  · rw [hto']
    rw [List.nodup_append] at hnd
    intro hmem
    rcases List.mem_append.mp hmem with hA | hB
    · exact hnd.2.2 hA (List.mem_cons_self _ _)
    · exact (List.nodup_cons.mp hnd.2.1).1 hB
  · intro j hj
    rw [getById_append, getById_append, getById]
    have : ¬ (n.idOf = some j) := by
      rw [hn]
      simpa using fun hh => hj hh.symm
    rw [if_neg this]

theorem update_facts {i : Nat} {l : List VNode} {f : Nat} (nm : String)
    (hnd : (topIds l).Nodup) (hbd : ∀ j ∈ topIds l, j < f) :
    (topIds (updateById i (erasePropN nm) l)).Nodup ∧
      (∀ j ∈ topIds (updateById i (erasePropN nm) l), j < f) ∧
      (∀ j, j ≠ i → getById j (updateById i (erasePropN nm) l) = getById j l) := by
  rw [topIds_updateById i _ (erasePropN_idOf nm) l]
  exact ⟨hnd, hbd, fun j hj => getById_updateById_ne hj _ (erasePropN_idOf nm) l⟩

theorem splice_facts {i k : Nat} {l : List VNode} {f d : Nat}
    (clones : List VNode)
    (hidx : indexById i l = some k)
    (hcl : ∀ j ∈ topIds clones, f ≤ j ∧ j < f + d)
    (hclnd : (topIds clones).Nodup)
    (hnd : (topIds l).Nodup) (hbd : ∀ j ∈ topIds l, j < f) :
    (topIds (spliceAt k clones l)).Nodup ∧
      (∀ j ∈ topIds (spliceAt k clones l), j < f + d) ∧
      (∀ j, j ≠ i → j < f → getById j (spliceAt k clones l) = getById j l) := by
  obtain ⟨la, n, lb, rfl, rfl, hn, -⟩ := indexById_decomp hidx
  have hsplice : spliceAt la.length clones (la ++ n :: lb) = la ++ clones ++ lb := by
    unfold spliceAt
    have h1 : (la ++ n :: lb).take la.length = la := List.take_left la (n :: lb)
    have h2 : (la ++ n :: lb).drop (la.length + 1) = lb := by
      have : la ++ n :: lb = (la ++ [n]) ++ lb := by simp
      rw [this]
      have hlen : (la ++ [n]).length = la.length + 1 := by simp
      rw [← hlen]
      exact List.drop_left (la ++ [n]) lb
    rw [h1, h2, List.append_assoc]
  rw [hsplice]
  have hto : topIds (la ++ n :: lb) = topIds la ++ i :: topIds lb := by
    rw [topIds_append, topIds_cons, hn]
  rw [hto] at hnd hbd
  have htoS : topIds (la ++ clones ++ lb) = topIds la ++ topIds clones ++ topIds lb := by
    rw [topIds_append, topIds_append]
  rw [List.nodup_append] at hnd
  obtain ⟨hndA, hndIB, hdisA⟩ := hnd
  have hndB := (List.nodup_cons.mp hndIB).2
  have hiB := (List.nodup_cons.mp hndIB).1
  have hAv : ∀ j ∈ topIds la, j < f := fun j hj => hbd j (List.mem_append.mpr (.inl hj))
  have hBv : ∀ j ∈ topIds lb, j < f := fun j hj =>
    hbd j (List.mem_append.mpr (.inr (List.mem_cons_of_mem _ hj)))
  refine ⟨?_, ?_, ?_⟩
  · rw [htoS, List.append_assoc, List.nodup_append]
    refine ⟨hndA, ?_, ?_⟩
    · rw [List.nodup_append]
      refine ⟨hclnd, hndB, ?_⟩
      intro a haC haB
      exact absurd (hBv a haB) (not_lt.mpr (hcl a haC).1)
    · intro a haA hmem
      rcases List.mem_append.mp hmem with hC | hB
      · exact absurd (hAv a haA) (not_lt.mpr (hcl a hC).1)
      · exact hdisA haA (List.mem_cons_of_mem _ hB)
  · intro j hj
    rw [htoS] at hj
    rcases List.mem_append.mp hj with hAB | hB
    · rcases List.mem_append.mp hAB with hA | hC
      · exact lt_of_lt_of_le (hAv j hA) (Nat.le_add_right f d)
      · exact (hcl j hC).2
    · exact lt_of_lt_of_le (hBv j hB) (Nat.le_add_right f d)
  · intro j hji hjf
    rw [List.append_assoc, getById_append, getById_append, getById_append, getById]
    have hnj : ¬ (n.idOf = some j) := by
      rw [hn]
      simpa using fun hh => hji hh.symm
    rw [if_neg hnj]
    have hjC : getById j clones = none := by
      rw [getById_eq_none_iff]
      intro hmem
      exact absurd hjf (not_lt.mpr (hcl j hmem).1)
    cases hA : getById j la
    · simp [Option.orElse, hjC]
    · simp [Option.orElse]

theorem mem_ifNames_cases {nm : String} (h : nm ∈ ifNames) :
    nm = "py-if" ∨ nm = "@if" := by simpa [ifNames] using h

theorem mem_elifNames_cases {nm : String} (h : nm ∈ elifNames) :
    nm = "py-elif" ∨ nm = "@elif" := by simpa [elifNames] using h

theorem mem_elseNames_cases {nm : String} (h : nm ∈ elseNames) :
    nm = "py-else" ∨ nm = "@else" := by simpa [elseNames] using h

theorem step_dispatch_if {ev : Evaluator} {io : IterOracle} {kw' anc : Ctx}
    {st : CondSt} {nm : String} {cid i2 : Nat} {tag : String}
    {props : List (String × PVal)} {locs : List (String × Val)}
    {pos : Option (Nat × Nat)} {ch : List VNode}
    (hname : nm ∈ ifNames)
    (hnode : getById cid st.children = some (.el i2 tag props locs pos ch)) :
    execute_condition_step ev io kw' anc st (nm, cid) =
      stepIf ev kw' anc st nm cid props locs := by
  have hfor : nm ∉ forNames := by
    rcases mem_ifNames_cases hname with rfl | rfl <;> decide
  unfold execute_condition_step
  rw [hnode]
  show (if nm ∈ forNames then stepFor io kw' anc st nm cid tag props locs ch
        else if nm ∈ ifNames then stepIf ev kw' anc st nm cid props locs
        else if nm ∈ elifNames then stepElif ev kw' anc st nm cid props locs
        else if nm ∈ elseNames then stepElse st nm cid
        else Except.error "Unkown condition property") = _
  rw [if_neg hfor, if_pos hname]

theorem step_dispatch_elif {ev : Evaluator} {io : IterOracle} {kw' anc : Ctx}
    {st : CondSt} {nm : String} {cid i2 : Nat} {tag : String}
    {props : List (String × PVal)} {locs : List (String × Val)}
    {pos : Option (Nat × Nat)} {ch : List VNode}
    (hname : nm ∈ elifNames)
    (hnode : getById cid st.children = some (.el i2 tag props locs pos ch)) :
    execute_condition_step ev io kw' anc st (nm, cid) =
      stepElif ev kw' anc st nm cid props locs := by
  have hfor : nm ∉ forNames := by
    rcases mem_elifNames_cases hname with rfl | rfl <;> decide
  have hif : nm ∉ ifNames := by
    rcases mem_elifNames_cases hname with rfl | rfl <;> decide
  unfold execute_condition_step
  rw [hnode]
  show (if nm ∈ forNames then stepFor io kw' anc st nm cid tag props locs ch
        else if nm ∈ ifNames then stepIf ev kw' anc st nm cid props locs
        else if nm ∈ elifNames then stepElif ev kw' anc st nm cid props locs
        else if nm ∈ elseNames then stepElse st nm cid
        else Except.error "Unkown condition property") = _
  rw [if_neg hfor, if_neg hif, if_pos hname]

theorem step_dispatch_else {ev : Evaluator} {io : IterOracle} {kw' anc : Ctx}
    {st : CondSt} {nm : String} {cid i2 : Nat} {tag : String}
    {props : List (String × PVal)} {locs : List (String × Val)}
    {pos : Option (Nat × Nat)} {ch : List VNode}
    (hname : nm ∈ elseNames)
    (hnode : getById cid st.children = some (.el i2 tag props locs pos ch)) :
    execute_condition_step ev io kw' anc st (nm, cid) = stepElse st nm cid := by
  have hfor : nm ∉ forNames := by
    rcases mem_elseNames_cases hname with rfl | rfl <;> decide
  have hif : nm ∉ ifNames := by
    rcases mem_elseNames_cases hname with rfl | rfl <;> decide
  have helif : nm ∉ elifNames := by
    rcases mem_elseNames_cases hname with rfl | rfl <;> decide
  unfold execute_condition_step
  rw [hnode]
  show (if nm ∈ forNames then stepFor io kw' anc st nm cid tag props locs ch
        else if nm ∈ ifNames then stepIf ev kw' anc st nm cid props locs
        else if nm ∈ elifNames then stepElif ev kw' anc st nm cid props locs
        else if nm ∈ elseNames then stepElse st nm cid
        else Except.error "Unkown condition property") = _
  rw [if_neg hfor, if_neg hif, if_neg helif, if_pos hname]

theorem stepIf_true_spec {ev : Evaluator} {kw' anc : Ctx} {st : CondSt}
    {nm : String} {cid : Nat} {props : List (String × PVal)}
    {locs : List (String × Val)} {s : String}
    (hstr : alookup nm props = some (.pstr s))
    (hr : (ev (prepCondition s) (clocalsOf kw' anc locs)).truthy = true) :
    stepIf ev kw' anc st nm cid props locs =
      .ok { st with children := updateById cid (erasePropN nm) st.children,
                    prevName := "@if", prevVal := true, firstCond := true,
                    evalLog := st.evalLog ++ [cid] } := by
  unfold stepIf
  rw [hstr]
  simp only [hr, if_true]

theorem stepIf_false_spec {ev : Evaluator} {kw' anc : Ctx} {st : CondSt}
    {nm : String} {cid : Nat} {props : List (String × PVal)}
    {locs : List (String × Val)} {s : String} {l' : List VNode}
    (hstr : alookup nm props = some (.pstr s))
    (hr : (ev (prepCondition s) (clocalsOf kw' anc locs)).truthy = false)
    (hrem : removeById cid st.children = some l') :
    stepIf ev kw' anc st nm cid props locs =
      .ok { st with children := l', prevName := "@if", prevVal := false,
                    firstCond := true, evalLog := st.evalLog ++ [cid] } := by
  unfold stepIf
  rw [hstr]
  simp only [hr, Bool.false_eq_true, if_false]
  rw [hrem]

theorem stepElif_invalid_spec {ev : Evaluator} {kw' anc : Ctx} {st : CondSt}
    {nm : String} {cid : Nat} {props : List (String × PVal)}
    {locs : List (String × Val)}
    (hv : ¬ (st.prevName ∈ validPrevElif ∧ st.firstCond)) :
    stepElif ev kw' anc st nm cid props locs = .error "py-elif must follow a py-if" := by
  unfold stepElif
  rw [if_neg hv]

theorem stepElif_resolved_spec {ev : Evaluator} {kw' anc : Ctx} {st : CondSt}
    {nm : String} {cid : Nat} {props : List (String × PVal)}
    {locs : List (String × Val)} {l' : List VNode}
    (hv : st.prevName ∈ validPrevElif ∧ st.firstCond)
    (hprev : st.prevVal = true)
    (hrem : removeById cid st.children = some l') :
    stepElif ev kw' anc st nm cid props locs = .ok { st with children := l' } := by
  unfold stepElif
  rw [if_pos hv]
  simp only [hprev, if_true]
  rw [hrem]

theorem stepElif_true_spec {ev : Evaluator} {kw' anc : Ctx} {st : CondSt}
    {nm : String} {cid : Nat} {props : List (String × PVal)}
    {locs : List (String × Val)} {s : String}
    (hv : st.prevName ∈ validPrevElif ∧ st.firstCond)
    (hprev : st.prevVal = false)
    (hstr : alookup nm props = some (.pstr s))
    (hr : (ev (prepCondition s) (clocalsOf kw' anc locs)).truthy = true) :
    stepElif ev kw' anc st nm cid props locs =
      .ok { st with children := updateById cid (erasePropN nm) st.children,
                    prevName := "@elif", prevVal := true,
                    evalLog := st.evalLog ++ [cid] } := by
  unfold stepElif
  rw [if_pos hv]
  simp only [hprev, Bool.false_eq_true, if_false]
  rw [hstr]
  simp only [hr, if_true]

theorem stepElif_false_spec {ev : Evaluator} {kw' anc : Ctx} {st : CondSt}
    {nm : String} {cid : Nat} {props : List (String × PVal)}
    {locs : List (String × Val)} {s : String} {l' : List VNode}
    (hv : st.prevName ∈ validPrevElif ∧ st.firstCond)
    (hprev : st.prevVal = false)
    (hstr : alookup nm props = some (.pstr s))
    (hr : (ev (prepCondition s) (clocalsOf kw' anc locs)).truthy = false)
    (hrem : removeById cid st.children = some l') :
    stepElif ev kw' anc st nm cid props locs =
      .ok { st with children := l', prevName := "@elif", prevVal := false,
                    evalLog := st.evalLog ++ [cid] } := by
  unfold stepElif
  rw [if_pos hv]
  simp only [hprev, Bool.false_eq_true, if_false]
  rw [hstr]
  simp only [hr, Bool.false_eq_true, if_false]
  rw [hrem]

theorem stepElse_invalid_spec {st : CondSt} {nm : String} {cid : Nat}
    (hv : ¬ (st.prevName ∈ validPrevElse ∧ st.firstCond)) :
    stepElse st nm cid = .error "py-else must follow a py-if" := by
  unfold stepElse
  rw [if_neg hv]

theorem stepElse_resolved_spec {st : CondSt} {nm : String} {cid : Nat}
    {l' : List VNode}
    (hv : st.prevName ∈ validPrevElse ∧ st.firstCond)
    (hprev : st.prevVal = true)
    (hrem : removeById cid st.children = some l') :
    stepElse st nm cid = .ok { st with children := l', firstCond := false } := by
  unfold stepElse
  rw [if_pos hv]
  simp only [hprev, if_true]
  rw [hrem]

theorem stepElse_keep_spec {st : CondSt} {nm : String} {cid : Nat}
    (hv : st.prevName ∈ validPrevElse ∧ st.firstCond)
    (hprev : st.prevVal = false) :
    stepElse st nm cid =
      .ok { st with children := updateById cid (erasePropN nm) st.children,
                    prevName := "@else", prevVal := true, firstCond := false } := by
  unfold stepElse
  rw [if_pos hv]
  simp only [hprev, Bool.false_eq_true, if_false]

theorem topIds_enum_map {α : Type _} (f : Nat) (g : Nat × α → VNode) (X : List α)
    (hg : ∀ p, (g p).idOf = some (f + p.1)) :
    topIds (X.enum.map g) = (List.range X.length).map (f + ·) := by
  unfold topIds
  rw [List.filterMap_map]
  have hfun : VNode.idOf ∘ g = some ∘ (fun p : Nat × α => f + p.1) := funext hg
  rw [hfun, List.filterMap_eq_map]
  have : (fun p : Nat × α => f + p.1) = (f + ·) ∘ Prod.fst := rfl
  rw [this, ← List.map_map, List.enum_map_fst]

theorem range_map_add_facts (f d : Nat) :
    ((List.range d).map (f + ·)).Nodup ∧
      ∀ j ∈ (List.range d).map (f + ·), f ≤ j ∧ j < f + d := by
  constructor
  · exact List.Nodup.map (fun a b h => Nat.add_left_cancel h) (List.nodup_range d)
  · intro j hj
    obtain ⟨k, hk, rfl⟩ := List.mem_map.mp hj
    rw [List.mem_range] at hk
    exact ⟨Nat.le_add_right _ _, Nat.add_lt_add_left hk _⟩

theorem stepFor_inv {io : IterOracle} {kw' anc : Ctx} {st : CondSt}
    {nm : String} {cid : Nat} {tag : String} {props : List (String × PVal)}
    {locs : List (String × Val)} {ch : List VNode} {s1 : CondSt}
    (h : stepFor io kw' anc st nm cid tag props locs ch = .ok s1) :
    s1.prevName = "@for" ∧ s1.firstCond = false ∧ s1.evalLog = st.evalLog ∧
      st.fresh ≤ s1.fresh ∧
      ((topIds st.children).Nodup → (∀ j ∈ topIds st.children, j < st.fresh) →
        ((topIds s1.children).Nodup ∧ (∀ j ∈ topIds s1.children, j < s1.fresh) ∧
          ∀ j, j ≠ cid → j < st.fresh →
            getById j s1.children = getById j st.children)) := by
  unfold stepFor at h
  split at h
  · cases h
  · split at h
    · rename_i raw hpv
      split at h
      · cases h
      · split at h
        · cases h
        · rename_i insert hidx
          cases h
          refine ⟨rfl, rfl, rfl, Nat.le_add_right _ _, ?_⟩
          intro hnd hbd
          have hids := topIds_enum_map st.fresh
            (fun p => VNode.el (st.fresh + p.1) tag (aerase nm props)
              (aupd p.2 (aupd anc locs)) none ch) (io raw kw')
            (fun p => rfl)
          have hrng := range_map_add_facts st.fresh (io raw kw').length
          have := splice_facts (d := (io raw kw').length) _ hidx
            (fun j hj => by rw [hids] at hj; exact hrng.2 j hj)
            (by rw [hids]; exact hrng.1) hnd hbd
          exact ⟨this.1, this.2.1, fun j hj hjf => this.2.2 j hj hjf⟩
    · cases h

/-- Frame property of one execute_conditions iteration: identities stay
    distinct and bounded, the fresh counter grows, nodes other than the
    processed one are untouched, and at most the processed identity is
    logged. -/
theorem step_frame {ev : Evaluator} {io : IterOracle} {kw' anc : Ctx}
    {st st' : CondSt} {ce : String × Nat}
    (h : execute_condition_step ev io kw' anc st ce = .ok st')
    (hnd : (topIds st.children).Nodup)
    (hbd : ∀ j ∈ topIds st.children, j < st.fresh) :
    ((topIds st'.children).Nodup ∧ ∀ j ∈ topIds st'.children, j < st'.fresh) ∧
      st.fresh ≤ st'.fresh ∧
      (∀ j, j ≠ ce.2 → j < st.fresh →
        getById j st'.children = getById j st.children) ∧
      (st'.evalLog = st.evalLog ∨ st'.evalLog = st.evalLog ++ [ce.2]) := by
  unfold execute_condition_step at h
  split at h
  case _ n i2 tag props locs pos ch hget =>
    split at h
    · -- for branch
      obtain ⟨-, -, hlog, hfr, hrest⟩ := stepFor_inv h
      obtain ⟨h1, h2, h3⟩ := hrest hnd hbd
      exact ⟨⟨h1, h2⟩, hfr, h3, .inl hlog⟩
    · split at h
      · -- if branch
        unfold stepIf at h
        split at h
        · cases h
        · split at h
          · split at h
            · cases h
              obtain ⟨u1, u2, u3⟩ := update_facts ce.1 hnd hbd
              exact ⟨⟨u1, u2⟩, le_refl _, fun j hj _ => u3 j hj, .inr rfl⟩
            · split at h
              · rename_i l' hrem
                cases h
                obtain ⟨r1, r2, -, r4⟩ := remove_facts hrem hnd hbd
                exact ⟨⟨r1, r2⟩, le_refl _, fun j hj _ => r4 j hj, .inr rfl⟩
              · cases h
          · cases h
      · split at h
        · -- elif branch
          unfold stepElif at h
          split at h
          · split at h
            · split at h
              · rename_i l' hrem
                cases h
                obtain ⟨r1, r2, -, r4⟩ := remove_facts hrem hnd hbd
                exact ⟨⟨r1, r2⟩, le_refl _, fun j hj _ => r4 j hj, .inl rfl⟩
              · cases h
            · split at h
              · cases h
              · split at h
                · split at h
                  · cases h
                    obtain ⟨u1, u2, u3⟩ := update_facts ce.1 hnd hbd
                    exact ⟨⟨u1, u2⟩, le_refl _, fun j hj _ => u3 j hj, .inr rfl⟩
                  · split at h
                    · rename_i l' hrem
                      cases h
                      obtain ⟨r1, r2, -, r4⟩ := remove_facts hrem hnd hbd
                      exact ⟨⟨r1, r2⟩, le_refl _, fun j hj _ => r4 j hj, .inr rfl⟩
                    · cases h
                · cases h
          · cases h
        · split at h
          · -- else branch
            unfold stepElse at h
            split at h
            · split at h
              · split at h
                · rename_i l' hrem
                  cases h
                  obtain ⟨r1, r2, -, r4⟩ := remove_facts hrem hnd hbd
                  exact ⟨⟨r1, r2⟩, le_refl _, fun j hj _ => r4 j hj, .inl rfl⟩
                · cases h
              · cases h
                obtain ⟨u1, u2, u3⟩ := update_facts ce.1 hnd hbd
                exact ⟨⟨u1, u2⟩, le_refl _, fun j hj _ => u3 j hj, .inl rfl⟩
            · cases h
          · cases h
  case _ n hget =>
    cases h

theorem except_ok_bind {ε α β : Type _} (a : α) (f : α → Except ε β) :
    (Except.ok a >>= f) = f a := rfl

theorem except_bind_ok {ε α β : Type _} {x : Except ε α} {f : α → Except ε β}
    {b : β} (h : (x >>= f) = .ok b) : ∃ a, x = .ok a ∧ f a = .ok b := by
  cases x with
  | error e => exact absurd h (by simp [Bind.bind, Except.bind])
  | ok a =>
    refine ⟨a, rfl, ?_⟩
    simpa [Bind.bind, Except.bind] using h

/-- Frame property of a run of execute_conditions iterations: identities
    not named by the processed entries keep their node and stay out of the
    evaluation log. -/
theorem fold_frame {ev : Evaluator} {io : IterOracle} {kw' anc : Ctx}
    {cs : List (String × Nat)} {st st' : CondSt}
    (h : cs.foldlM (execute_condition_step ev io kw' anc) st = .ok st')
    (hnd : (topIds st.children).Nodup)
    (hbd : ∀ j ∈ topIds st.children, j < st.fresh) :
    ((topIds st'.children).Nodup ∧ ∀ j ∈ topIds st'.children, j < st'.fresh) ∧
      st.fresh ≤ st'.fresh ∧
      (∀ j, j ∉ cs.map Prod.snd → j < st.fresh →
        getById j st'.children = getById j st.children) ∧
      (∀ j, j ∉ cs.map Prod.snd → j ∉ st.evalLog → j ∉ st'.evalLog) := by
  induction cs generalizing st with
  | nil =>
    rw [List.foldlM_nil] at h
    cases h
    exact ⟨⟨hnd, hbd⟩, le_refl _, fun _ _ _ => rfl, fun _ _ hj => hj⟩
  | cons ce rest ih =>
    rw [List.foldlM_cons] at h
    obtain ⟨st1, hstep, hrest⟩ := except_bind_ok h
    obtain ⟨⟨g1, g2⟩, hfr, hframe, hlog⟩ := step_frame hstep hnd hbd
    obtain ⟨hgood', hfr', hframe', hlog'⟩ := ih hrest g1 g2
    refine ⟨hgood', le_trans hfr hfr', ?_, ?_⟩
    · intro j hj hjf
      simp only [List.map_cons, List.mem_cons, not_or] at hj
      rw [hframe' j hj.2 (lt_of_lt_of_le hjf hfr), hframe j hj.1 hjf]
    · intro j hj hjl
      simp only [List.map_cons, List.mem_cons, not_or] at hj
      apply hlog' j hj.2
      rcases hlog with heq | heq
      · rw [heq]; exact hjl
      · rw [heq]
        simp only [List.mem_append, List.mem_singleton, not_or]
        exact ⟨hjl, hj.1⟩

theorem mem_topIds_of_getById {j : Nat} {l : List VNode}
    (h : getById j l ≠ none) : j ∈ topIds l := by
  by_contra hc
  exact h (getById_eq_none_iff.mpr hc)

theorem alookup_of_mem_keys {k : String} {m : List (String × β)}
    (h : k ∈ m.map Prod.fst) : ∃ v, alookup k m = some v := by
  induction m with
  | nil => simp at h
  | cons p rest ih =>
    obtain ⟨k', v'⟩ := p
    rw [alookup_cons]
    by_cases hk : k' = k
    · exact ⟨v', by rw [if_pos hk]⟩
    · rw [if_neg hk]
      apply ih
      simp only [List.map_cons, List.mem_cons] at h
      rcases h with rfl | h
      · exact absurd rfl hk
      · exact h

theorem scan_sub {children : List VNode} {cs : List (String × Nat)}
    (h : scan_conditions children = .ok cs) :
    (cs.map Prod.snd).Sublist (topIds children) := by
  induction children generalizing cs with
  | nil =>
    rw [scan_conditions] at h
    cases h
    simp
  | cons n rest ih =>
    cases n with
    | el i tag props locs pos ch =>
      rw [scan_conditions] at h
      split at h
      · rw [topIds_cons]
        exact (ih h).cons _
      · obtain ⟨cs', hcs', heq⟩ := except_bind_ok h
        cases heq
        rw [topIds_cons]
        exact (ih hcs').cons₂ _
      · cases h
    | text v =>
      rw [scan_conditions] at h
      · rw [topIds_cons]
        exact ih h
      · exact fun _ _ _ _ _ _ hh => VNode.noConfusion hh
    | comment v =>
      rw [scan_conditions] at h
      · rw [topIds_cons]
        exact ih h
      · exact fun _ _ _ _ _ _ hh => VNode.noConfusion hh
    | doctype =>
      rw [scan_conditions] at h
      · rw [topIds_cons]
        exact ih h
      · exact fun _ _ _ _ _ _ hh => VNode.noConfusion hh

theorem scan_entry_node {children : List VNode} {cs : List (String × Nat)}
    (hnd : (topIds children).Nodup)
    (h : scan_conditions children = .ok cs) :
    ∀ ce ∈ cs, ∃ tag props locs pos ch,
      getById ce.2 children = some (.el ce.2 tag props locs pos ch) ∧
      ce.1 ∈ pyConditionNames ∧ ∃ pv, alookup ce.1 props = some pv := by
  induction children generalizing cs with
  | nil =>
    rw [scan_conditions] at h
    cases h
    simp
  | cons n rest ih =>
    cases n with
    | el i tag props locs pos ch =>
      rw [scan_conditions] at h
      have hnd' : (topIds rest).Nodup := by
        rw [topIds_cons] at hnd
        exact (List.nodup_cons.mp hnd).2
      have hhead : i ∉ topIds rest := by
        rw [topIds_cons] at hnd
        exact (List.nodup_cons.mp hnd).1
      split at h
      · intro ce hce
        obtain ⟨tg, pr, lo, po, c, hget, hnm, hpv⟩ := ih hnd' h ce hce
        refine ⟨tg, pr, lo, po, c, ?_, hnm, hpv⟩
        rw [getById]
        have : ce.2 ≠ i := by
          intro hc
          apply hhead
          rw [← hc]
          have := (scan_sub h).mem (List.mem_map_of_mem Prod.snd hce)
          exact this
        simp only [VNode.idOf, Option.some.injEq]
        rw [if_neg (fun hc => this hc.symm)]
        exact hget
      · rename_i c hpc
        obtain ⟨cs', hcs', heq⟩ := except_bind_ok h
        cases heq
        intro ce hce
        rcases List.mem_cons.mp hce with rfl | hce
        · refine ⟨tag, props, locs, pos, ch, ?_, ?_, ?_⟩
          · rw [getById]
            simp [VNode.idOf]
          · have : c ∈ py_conditions props := by rw [hpc]; exact List.mem_singleton.mpr rfl
            exact of_decide_eq_true (List.mem_filter.mp this).2
          · have : c ∈ py_conditions props := by rw [hpc]; exact List.mem_singleton.mpr rfl
            exact alookup_of_mem_keys (List.mem_filter.mp this).1
        · obtain ⟨tg, pr, lo, po, cc, hget, hnm, hpv⟩ := ih hnd' hcs' ce hce
          refine ⟨tg, pr, lo, po, cc, ?_, hnm, hpv⟩
          rw [getById]
          have : ce.2 ≠ i := by
            intro hc
            apply hhead
            rw [← hc]
            exact (scan_sub hcs').mem (List.mem_map_of_mem Prod.snd hce)
          simp only [VNode.idOf, Option.some.injEq]
          rw [if_neg (fun hc => this hc.symm)]
          exact hget
      · cases h
    | text v =>
      rw [scan_conditions] at h
      · rw [topIds_cons] at hnd
        intro ce hce
        obtain ⟨tg, pr, lo, po, c, hget, hnm, hpv⟩ := ih hnd h ce hce
        exact ⟨tg, pr, lo, po, c, by rw [getById]; simpa [VNode.idOf] using hget, hnm, hpv⟩
      · exact fun _ _ _ _ _ _ hh => VNode.noConfusion hh
    | comment v =>
      rw [scan_conditions] at h
      · rw [topIds_cons] at hnd
        intro ce hce
        obtain ⟨tg, pr, lo, po, c, hget, hnm, hpv⟩ := ih hnd h ce hce
        exact ⟨tg, pr, lo, po, c, by rw [getById]; simpa [VNode.idOf] using hget, hnm, hpv⟩
      · exact fun _ _ _ _ _ _ hh => VNode.noConfusion hh
    | doctype =>
      rw [scan_conditions] at h
      · rw [topIds_cons] at hnd
        intro ce hce
        obtain ⟨tg, pr, lo, po, c, hget, hnm, hpv⟩ := ih hnd h ce hce
        exact ⟨tg, pr, lo, po, c, by rw [getById]; simpa [VNode.idOf] using hget, hnm, hpv⟩
      · exact fun _ _ _ _ _ _ hh => VNode.noConfusion hh

theorem getById_el_form {j : Nat} {l : List VNode} {n : VNode}
    (h : getById j l = some n) :
    ∃ tag props locs pos ch, n = VNode.el j tag props locs pos ch := by
  have hid := getById_id h
  cases n with
  | el i tag props locs pos ch =>
    have hij : i = j := by simpa [VNode.idOf] using hid
    subst hij
    exact ⟨tag, props, locs, pos, ch, rfl⟩
  | text v => simp [VNode.idOf] at hid
  | comment v => simp [VNode.idOf] at hid
  | doctype => simp [VNode.idOf] at hid

/-- Processing the tail of a chain whose outcome is already decided true:
    every remaining elif/else member is removed without evaluation and
    without touching anything else (compile.py lines 554, 565-566,
    572, 576-577). -/
theorem chain_resolved {ev : Evaluator} {io : IterOracle} {kw' anc : Ctx}
    {body : List (String × Nat)} {s : CondSt}
    (hwf : BodyWF body)
    (hprevN : s.prevName ∈ validPrevElif)
    (hfc : s.firstCond = true) (hpv : s.prevVal = true)
    (hnd : (topIds s.children).Nodup)
    (hbd : ∀ j ∈ topIds s.children, j < s.fresh)
    (hpres : ∀ ce ∈ body, ce.2 ∈ topIds s.children)
    (hdist : (body.map Prod.snd).Nodup) :
    ∃ s', body.foldlM (execute_condition_step ev io kw' anc) s = .ok s' ∧
      (topIds s'.children).Nodup ∧ (∀ j ∈ topIds s'.children, j < s'.fresh) ∧
      s'.fresh = s.fresh ∧ s'.evalLog = s.evalLog ∧
      (∀ ce ∈ body, ce.2 ∉ topIds s'.children) ∧
      (∀ j, j ∉ body.map Prod.snd →
        getById j s'.children = getById j s.children) := by
  induction body generalizing s with
  | nil =>
    exact ⟨s, by rw [List.foldlM_nil]; rfl, hnd, hbd, rfl, rfl, by simp,
      fun _ _ => rfl⟩
  | cons ce rest ih =>
    obtain ⟨nm, cid⟩ := ce
    have hmem : cid ∈ topIds s.children := hpres (nm, cid) (List.mem_cons_self _ _)
    have hsome : (getById cid s.children).isSome := getById_isSome_of_mem hmem
    obtain ⟨n, hn⟩ := Option.isSome_iff_exists.mp hsome
    obtain ⟨tag, props, locs, pos, ch, rfl⟩ := getById_el_form hn
    have hdist' : (rest.map Prod.snd).Nodup := (List.nodup_cons.mp hdist).2
    have hcid_rest : cid ∉ rest.map Prod.snd := (List.nodup_cons.mp hdist).1
    obtain ⟨l', hrem⟩ :=
      Option.isSome_iff_exists.mp (removeById_isSome_of_getById hsome)
    obtain ⟨r1, r2, r3, r4⟩ := remove_facts hrem hnd hbd
    rcases hwf with ⟨helif, hwfrest⟩ | ⟨helse, hrest0⟩
    · -- elif member of a resolved chain: silent removal
      have hstep : execute_condition_step ev io kw' anc s (nm, cid) =
          .ok { s with children := l' } := by
        rw [step_dispatch_elif helif hn]
        exact stepElif_resolved_spec ⟨hprevN, hfc⟩ hpv hrem
      have hpres' : ∀ ce' ∈ rest, ce'.2 ∈ topIds l' := by
        intro ce' hce'
        have hne : ce'.2 ≠ cid := by
          intro hc
          exact hcid_rest (hc ▸ List.mem_map_of_mem Prod.snd hce')
        apply mem_topIds_of_getById
        rw [r4 ce'.2 hne]
        intro hc
        exact (getById_eq_none_iff.mp hc) (hpres ce' (List.mem_cons_of_mem _ hce'))
      obtain ⟨s', hfold, c1, c2, c3, c4, c5, c6⟩ :=
        ih (s := { s with children := l' }) hwfrest hprevN hfc hpv r1 r2 hpres' hdist'
      refine ⟨s', ?_, c1, c2, c3, c4, ?_, ?_⟩
      · rw [List.foldlM_cons, hstep, except_ok_bind]
        exact hfold
      · intro ce' hce'
        rcases List.mem_cons.mp hce' with rfl | hce'
        · rw [← getById_eq_none_iff]
          have h6 : getById cid s'.children = getById cid l' := c6 cid hcid_rest
          rw [h6]
          exact getById_eq_none_iff.mpr r3
        · exact c5 ce' hce'
      · intro j hj
        simp only [List.map_cons, List.mem_cons, not_or] at hj
        have h6 : getById j s'.children = getById j l' := c6 j hj.2
        rw [h6, r4 j hj.1]
    · -- else member of a resolved chain: silent removal, chain closes
      subst hrest0
      have hstep : execute_condition_step ev io kw' anc s (nm, cid) =
          .ok { s with children := l', firstCond := false } := by
        rw [step_dispatch_else helse hn]
        exact stepElse_resolved_spec ⟨hprevN, hfc⟩ hpv hrem
      refine ⟨{ s with children := l', firstCond := false }, ?_, r1, r2, rfl,
        rfl, ?_, ?_⟩
      · rw [List.foldlM_cons, hstep, except_ok_bind, List.foldlM_nil]
        rfl
      · intro ce' hce'
        rcases List.mem_cons.mp hce' with rfl | hce'
        · exact r3
        · simp at hce'
      · intro j hj
        simp only [List.map_cons, List.mem_cons, not_or] at hj
        exact r4 j hj.1

theorem mem_elifNames_not_else {nm : String} (h : nm ∈ elifNames) :
    nm ∉ elseNames := by
  rcases mem_elifNames_cases h with rfl | rfl <;> decide

theorem condTrueOf_eq {ev : Evaluator} {kw' anc : Ctx} {orig : List VNode}
    {nm : String} {cid : Nat} {tag : String} {props : List (String × PVal)}
    {locs : List (String × Val)} {pos : Option (Nat × Nat)} {ch : List VNode}
    {str : String}
    (hget : getById cid orig = some (.el cid tag props locs pos ch))
    (halook : alookup nm props = some (.pstr str)) :
    condTrueOf ev kw' anc orig (nm, cid) =
      (ev (prepCondition str) (clocalsOf kw' anc locs)).truthy := by
  have hred : condTrueOf ev kw' anc orig (nm, cid) =
      (match getById cid orig with
       | some (.el _ _ props locs _ _) =>
         match alookup nm props with
         | some (.pstr s) => (ev (prepCondition s) (clocalsOf kw' anc locs)).truthy
         | _ => false
       | _ => false) := rfl
  rw [hred, hget]
  show (match alookup nm props with
        | some (PVal.pstr s) =>
          (ev (prepCondition s) (clocalsOf kw' anc locs)).truthy
        | _ => false) = _
  rw [halook]

theorem chainPick_cons (ev : Evaluator) (kw' anc : Ctx) (children : List VNode)
    (nm : String) (cid : Nat) (rest : List (String × Nat)) :
    chainPick ev kw' anc children ((nm, cid) :: rest) =
      if nm ∈ elseNames ∨ condTrueOf ev kw' anc children (nm, cid) then some 0
      else (chainPick ev kw' anc children rest).map (· + 1) := rfl

/-- Processing the tail of a still-unresolved chain: members are evaluated
    in order until the first true one (an else counts as unconditionally
    true); the first true member is kept with its directive stripped and
    every later member is removed without evaluation (compile.py lines
    547-582). -/
theorem chain_unresolved {ev : Evaluator} {io : IterOracle} {kw' anc : Ctx}
    {orig : List VNode} {body : List (String × Nat)} {s : CondSt}
    (hwf : BodyWF body)
    (hprevN : s.prevName ∈ validPrevElif)
    (hfc : s.firstCond = true) (hpv : s.prevVal = false)
    (hnd : (topIds s.children).Nodup)
    (hbd : ∀ j ∈ topIds s.children, j < s.fresh)
    (horig : ∀ ce ∈ body, getById ce.2 s.children = getById ce.2 orig)
    (hstrc : ∀ ce ∈ body, ce.1 ∈ elseNames ∨ StrCond orig ce)
    (hpres : ∀ ce ∈ body, ce.2 ∈ topIds s.children)
    (hdist : (body.map Prod.snd).Nodup)
    (hlog : ∀ ce ∈ body, ce.2 ∉ s.evalLog) :
    ∃ s', body.foldlM (execute_condition_step ev io kw' anc) s = .ok s' ∧
      (topIds s'.children).Nodup ∧ (∀ j ∈ topIds s'.children, j < s'.fresh) ∧
      s'.fresh = s.fresh ∧
      (∀ j, j ∉ body.map Prod.snd →
        getById j s'.children = getById j s.children) ∧
      (∀ j, j ∉ body.map Prod.snd → j ∉ s.evalLog → j ∉ s'.evalLog) ∧
      (chainPick ev kw' anc orig body = none →
        ∀ ce ∈ body, ce.2 ∉ topIds s'.children) ∧
      (∀ t, chainPick ev kw' anc orig body = some t →
        ∀ k ce, body.get? k = some ce →
          ((k = t → ∃ n, getById ce.2 orig = some n ∧
              getById ce.2 s'.children = some (erasePropN ce.1 n)) ∧
           (k ≠ t → ce.2 ∉ topIds s'.children) ∧
           (t < k → ce.2 ∉ s'.evalLog))) := by
  induction body generalizing s with
  | nil =>
    refine ⟨s, by rw [List.foldlM_nil]; rfl, hnd, hbd, rfl, fun _ _ => rfl,
      fun _ _ h => h, fun _ => by simp, ?_⟩
    intro t ht
    simp [chainPick] at ht
  | cons ce rest ih =>
    obtain ⟨nm, cid⟩ := ce
    have hmem : cid ∈ topIds s.children := hpres (nm, cid) (List.mem_cons_self _ _)
    have hsome : (getById cid s.children).isSome := getById_isSome_of_mem hmem
    obtain ⟨n, hn0⟩ := Option.isSome_iff_exists.mp hsome
    obtain ⟨tag, props, locs, pos, ch, rfl⟩ := getById_el_form hn0
    have hn : getById cid s.children = some (.el cid tag props locs pos ch) := hn0
    have horig0 : getById cid orig = some (.el cid tag props locs pos ch) := by
      rw [← horig (nm, cid) (List.mem_cons_self _ _)]
      exact hn
    have hdist' : (rest.map Prod.snd).Nodup := (List.nodup_cons.mp hdist).2
    have hcid_rest : cid ∉ rest.map Prod.snd := (List.nodup_cons.mp hdist).1
    have hlog0 : cid ∉ s.evalLog := hlog (nm, cid) (List.mem_cons_self _ _)
    rcases hwf with ⟨helif, hwfrest⟩ | ⟨helse, hrest0⟩
    · -- elif member of an unresolved chain: evaluated
      have hnotelse : nm ∉ elseNames := mem_elifNames_not_else helif
      have hsc : StrCond orig (nm, cid) := by
        rcases hstrc (nm, cid) (List.mem_cons_self _ _) with he | hs
        · exact absurd he hnotelse
        · exact hs
      obtain ⟨tag2, props2, locs2, pos2, ch2, str, hget2, halook2⟩ := hsc
      have heq2 : VNode.el cid tag props locs pos ch =
          VNode.el cid tag2 props2 locs2 pos2 ch2 := by
        have := horig0.symm.trans hget2
        exact Option.some.inj this
      obtain ⟨-, rfl, rfl, -, -⟩ :
          tag = tag2 ∧ props = props2 ∧ locs = locs2 ∧ pos = pos2 ∧ ch = ch2 := by
        cases heq2
        exact ⟨rfl, rfl, rfl, rfl, rfl⟩
      have hct : condTrueOf ev kw' anc orig (nm, cid) =
          (ev (prepCondition str) (clocalsOf kw' anc locs)).truthy :=
        condTrueOf_eq horig0 halook2
      cases hr : (ev (prepCondition str) (clocalsOf kw' anc locs)).truthy with
      | true =>
        -- first true member: kept, directive stripped, chain resolves
        have hstep : execute_condition_step ev io kw' anc s (nm, cid) =
            .ok { s with
              children := updateById cid (erasePropN nm) s.children,
              prevName := "@elif", prevVal := true,
              evalLog := s.evalLog ++ [cid] } := by
          rw [step_dispatch_elif helif hn]
          exact stepElif_true_spec ⟨hprevN, hfc⟩ hpv halook2 hr
        obtain ⟨u1, u2, u3⟩ := update_facts (i := cid) nm hnd hbd
        have hpres1 : ∀ ce' ∈ rest, ce'.2 ∈
            topIds (updateById cid (erasePropN nm) s.children) := by
          intro ce' hce'
          rw [topIds_updateById cid _ (erasePropN_idOf nm)]
          exact hpres ce' (List.mem_cons_of_mem _ hce')
        obtain ⟨s', hfold, c1, c2, c3, c4, c5, c6⟩ :=
          chain_resolved (s := { s with
            children := updateById cid (erasePropN nm) s.children,
            prevName := "@elif", prevVal := true,
            evalLog := s.evalLog ++ [cid] })
            hwfrest (by show ("@elif" : String) ∈ validPrevElif; decide)
            hfc rfl u1 u2 hpres1 hdist'
        have hpick : chainPick ev kw' anc orig ((nm, cid) :: rest) = some 0 := by
          rw [chainPick_cons, if_pos (by rw [hct]; exact Or.inr hr)]
        refine ⟨s', ?_, c1, c2, c3, ?_, ?_, ?_, ?_⟩
        · rw [List.foldlM_cons, hstep, except_ok_bind]
          exact hfold
        · intro j hj
          simp only [List.map_cons, List.mem_cons, not_or] at hj
          have h6 : getById j s'.children =
              getById j (updateById cid (erasePropN nm) s.children) := c6 j hj.2
          rw [h6, u3 j hj.1]
        · intro j hj hjl
          simp only [List.map_cons, List.mem_cons, not_or] at hj
          rw [c4]
          simp only [List.mem_append, List.mem_singleton, not_or]
          exact ⟨hjl, hj.1⟩
        · intro hnone
          rw [hpick] at hnone
          cases hnone
        · intro t ht
          rw [hpick] at ht
          obtain rfl : (0 : Nat) = t := Option.some.inj ht
          intro k ce' hk
          cases k with
          | zero =>
            obtain rfl : (nm, cid) = ce' := Option.some.inj hk
            refine ⟨?_, ?_, ?_⟩
            · intro _
              refine ⟨VNode.el cid tag props locs pos ch, horig0, ?_⟩
              have h6 : getById cid s'.children =
                  getById cid (updateById cid (erasePropN nm) s.children) :=
                c6 cid hcid_rest
              rw [h6, getById_updateById_self hn _ (erasePropN_idOf nm)]
            · intro hne
              exact absurd rfl hne
            · intro hlt
              exact absurd hlt (by omega)
          | succ k' =>
            have hk' : rest.get? k' = some ce' := hk
            have hce' : ce' ∈ rest := List.get?_mem hk'
            refine ⟨?_, ?_, ?_⟩
            · intro h0
              exact absurd h0 (by omega)
            · intro _
              exact c5 ce' hce'
            · intro _
              rw [c4]
              simp only [List.mem_append, List.mem_singleton, not_or]
              refine ⟨hlog ce' (List.mem_cons_of_mem _ hce'), ?_⟩
              intro hc
              exact hcid_rest (hc ▸ List.mem_map_of_mem Prod.snd hce')
      | false =>
        -- false member: removed, chain stays unresolved
        obtain ⟨l', hrem⟩ :=
          Option.isSome_iff_exists.mp (removeById_isSome_of_getById hsome)
        obtain ⟨r1, r2, r3, r4⟩ := remove_facts hrem hnd hbd
        have hstep : execute_condition_step ev io kw' anc s (nm, cid) =
            .ok { s with children := l', prevName := "@elif", prevVal := false,
                         evalLog := s.evalLog ++ [cid] } := by
          rw [step_dispatch_elif helif hn]
          exact stepElif_false_spec ⟨hprevN, hfc⟩ hpv halook2 hr hrem
        have hpres1 : ∀ ce' ∈ rest, ce'.2 ∈ topIds l' := by
          intro ce' hce'
          have hne : ce'.2 ≠ cid := by
            intro hc
            exact hcid_rest (hc ▸ List.mem_map_of_mem Prod.snd hce')
          apply mem_topIds_of_getById
          rw [r4 ce'.2 hne]
          intro hc
          exact (getById_eq_none_iff.mp hc)
            (hpres ce' (List.mem_cons_of_mem _ hce'))
        have horig1 : ∀ ce' ∈ rest, getById ce'.2 l' = getById ce'.2 orig := by
          intro ce' hce'
          have hne : ce'.2 ≠ cid := by
            intro hc
            exact hcid_rest (hc ▸ List.mem_map_of_mem Prod.snd hce')
          rw [r4 ce'.2 hne]
          exact horig ce' (List.mem_cons_of_mem _ hce')
        have hlog1 : ∀ ce' ∈ rest, ce'.2 ∉ s.evalLog ++ [cid] := by
          intro ce' hce'
          simp only [List.mem_append, List.mem_singleton, not_or]
          refine ⟨hlog ce' (List.mem_cons_of_mem _ hce'), ?_⟩
          intro hc
          exact hcid_rest (hc ▸ List.mem_map_of_mem Prod.snd hce')
        obtain ⟨s', hfold, c1, c2, c3, c5, c6, c7, c8⟩ :=
          ih (s := { s with
            children := l', prevName := "@elif",
            prevVal := false, evalLog := s.evalLog ++ [cid] })
            hwfrest (by show ("@elif" : String) ∈ validPrevElif; decide)
            hfc rfl r1 r2 horig1
            (fun ce' hce' => hstrc ce' (List.mem_cons_of_mem _ hce'))
            hpres1 hdist' hlog1
        have hpick : chainPick ev kw' anc orig ((nm, cid) :: rest) =
            (chainPick ev kw' anc orig rest).map (· + 1) := by
          rw [chainPick_cons, if_neg]
          rw [hct]
          simp [hnotelse, hr]
        refine ⟨s', ?_, c1, c2, c3, ?_, ?_, ?_, ?_⟩
        · rw [List.foldlM_cons, hstep, except_ok_bind]
          exact hfold
        · intro j hj
          simp only [List.map_cons, List.mem_cons, not_or] at hj
          have h5 : getById j s'.children = getById j l' := c5 j hj.2
          rw [h5, r4 j hj.1]
        · intro j hj hjl
          simp only [List.map_cons, List.mem_cons, not_or] at hj
          apply c6 j hj.2
          simp only [List.mem_append, List.mem_singleton, not_or]
          exact ⟨hjl, hj.1⟩
        · intro hnone
          rw [hpick] at hnone
          have hnone' : chainPick ev kw' anc orig rest = none :=
            Option.map_eq_none'.mp hnone
          intro ce' hce'
          rcases List.mem_cons.mp hce' with rfl | hce'
          · rw [← getById_eq_none_iff]
            have h5 : getById cid s'.children = getById cid l' := c5 cid hcid_rest
            rw [h5]
            exact getById_eq_none_iff.mpr r3
          · exact c7 hnone' ce' hce'
        · intro t ht
          rw [hpick] at ht
          obtain ⟨t', ht', rfl⟩ := Option.map_eq_some'.mp ht
          intro k ce' hk
          cases k with
          | zero =>
            obtain rfl : (nm, cid) = ce' := Option.some.inj hk
            refine ⟨?_, ?_, ?_⟩
            · intro h0
              exact absurd h0 (by omega)
            · intro _
              rw [← getById_eq_none_iff]
              have h5 : getById cid s'.children = getById cid l' := c5 cid hcid_rest
              rw [h5]
              exact getById_eq_none_iff.mpr r3
            · intro hlt
              exact absurd hlt (by omega)
          | succ k' =>
            have hk' : rest.get? k' = some ce' := hk
            obtain ⟨d1, d2, d3⟩ := c8 t' ht' k' ce' hk'
            refine ⟨?_, ?_, ?_⟩
            · intro hkt
              exact d1 (by omega)
            · intro hkt
              exact d2 (by omega)
            · intro hlt
              exact d3 (by omega)
    · -- else member of an unresolved chain: kept unconditionally
      subst hrest0
      have hstep : execute_condition_step ev io kw' anc s (nm, cid) =
          .ok { s with
            children := updateById cid (erasePropN nm) s.children,
            prevName := "@else", prevVal := true, firstCond := false } := by
        rw [step_dispatch_else helse hn]
        exact stepElse_keep_spec ⟨hprevN, hfc⟩ hpv
      obtain ⟨u1, u2, u3⟩ := update_facts (i := cid) nm hnd hbd
      have hpick : chainPick ev kw' anc orig [(nm, cid)] = some 0 := by
        rw [chainPick_cons, if_pos (Or.inl helse)]
      refine ⟨{ s with
          children := updateById cid (erasePropN nm) s.children,
          prevName := "@else", prevVal := true, firstCond := false },
        ?_, u1, u2, rfl, ?_, fun _ _ h => h, ?_, ?_⟩
      · rw [List.foldlM_cons, hstep, except_ok_bind, List.foldlM_nil]
        rfl
      · intro j hj
        simp only [List.map_cons, List.mem_cons, not_or] at hj
        exact u3 j hj.1
      · intro hnone
        rw [hpick] at hnone
        cases hnone
      · intro t ht
        rw [hpick] at ht
        obtain rfl : (0 : Nat) = t := Option.some.inj ht
        intro k ce' hk
        cases k with
        | zero =>
          obtain rfl : (nm, cid) = ce' := Option.some.inj hk
          refine ⟨?_, ?_, ?_⟩
          · intro _
            exact ⟨VNode.el cid tag props locs pos ch, horig0,
              getById_updateById_self hn _ (erasePropN_idOf nm)⟩
          · intro hne
            exact absurd rfl hne
          · intro hlt
            exact absurd hlt (by omega)
        | succ k' =>
          simp [List.get?] at hk

theorem mem_ifNames_not_else {nm : String} (h : nm ∈ ifNames) :
    nm ∉ elseNames := by
  rcases mem_ifNames_cases h with rfl | rfl <;> decide

/-- Processing a whole if/elif*/else? chain from any machine state: the
    py-if head is evaluated unconditionally (compile.py line 529 ignores
    `previous`), then the tail behaves per the chain's resolution state. -/
theorem chain_spec {ev : Evaluator} {io : IterOracle} {kw' anc : Ctx}
    {orig : List VNode} {nm0 : String} {i0 : Nat}
    {body : List (String × Nat)} {s : CondSt}
    (hif : nm0 ∈ ifNames) (hwf : BodyWF body)
    (hnd : (topIds s.children).Nodup)
    (hbd : ∀ j ∈ topIds s.children, j < s.fresh)
    (horig : ∀ ce ∈ (nm0, i0) :: body,
      getById ce.2 s.children = getById ce.2 orig)
    (hstrc : ∀ ce ∈ (nm0, i0) :: body, ce.1 ∈ elseNames ∨ StrCond orig ce)
    (hpres : ∀ ce ∈ (nm0, i0) :: body, ce.2 ∈ topIds s.children)
    (hdist : (((nm0, i0) :: body).map Prod.snd).Nodup)
    (hlog : ∀ ce ∈ (nm0, i0) :: body, ce.2 ∉ s.evalLog) :
    ∃ s', ((nm0, i0) :: body).foldlM (execute_condition_step ev io kw' anc) s
        = .ok s' ∧
      (topIds s'.children).Nodup ∧ (∀ j ∈ topIds s'.children, j < s'.fresh) ∧
      s'.fresh = s.fresh ∧
      (∀ j, j ∉ ((nm0, i0) :: body).map Prod.snd →
        getById j s'.children = getById j s.children) ∧
      (∀ j, j ∉ ((nm0, i0) :: body).map Prod.snd →
        j ∉ s.evalLog → j ∉ s'.evalLog) ∧
      (chainPick ev kw' anc orig ((nm0, i0) :: body) = none →
        ∀ ce ∈ (nm0, i0) :: body, ce.2 ∉ topIds s'.children) ∧
      (∀ t, chainPick ev kw' anc orig ((nm0, i0) :: body) = some t →
        ∀ k ce, ((nm0, i0) :: body).get? k = some ce →
          ((k = t → ∃ n, getById ce.2 orig = some n ∧
              getById ce.2 s'.children = some (erasePropN ce.1 n)) ∧
           (k ≠ t → ce.2 ∉ topIds s'.children) ∧
           (t < k → ce.2 ∉ s'.evalLog))) := by
  have hmem : i0 ∈ topIds s.children := hpres (nm0, i0) (List.mem_cons_self _ _)
  have hsome : (getById i0 s.children).isSome := getById_isSome_of_mem hmem
  obtain ⟨n, hn0⟩ := Option.isSome_iff_exists.mp hsome
  obtain ⟨tag, props, locs, pos, ch, rfl⟩ := getById_el_form hn0
  have hn : getById i0 s.children = some (.el i0 tag props locs pos ch) := hn0
  have horig0 : getById i0 orig = some (.el i0 tag props locs pos ch) := by
    rw [← horig (nm0, i0) (List.mem_cons_self _ _)]
    exact hn
  have hdist' : (body.map Prod.snd).Nodup := (List.nodup_cons.mp hdist).2
  have hi0_rest : i0 ∉ body.map Prod.snd := (List.nodup_cons.mp hdist).1
  have hlog0 : i0 ∉ s.evalLog := hlog (nm0, i0) (List.mem_cons_self _ _)
  have hnotelse : nm0 ∉ elseNames := mem_ifNames_not_else hif
  have hsc : StrCond orig (nm0, i0) := by
    rcases hstrc (nm0, i0) (List.mem_cons_self _ _) with he | hs
    · exact absurd he hnotelse
    · exact hs
  obtain ⟨tag2, props2, locs2, pos2, ch2, str, hget2, halook2⟩ := hsc
  obtain ⟨-, rfl, rfl, -, -⟩ :
      tag = tag2 ∧ props = props2 ∧ locs = locs2 ∧ pos = pos2 ∧ ch = ch2 := by
    cases Option.some.inj (horig0.symm.trans hget2)
    exact ⟨rfl, rfl, rfl, rfl, rfl⟩
  have hct : condTrueOf ev kw' anc orig (nm0, i0) =
      (ev (prepCondition str) (clocalsOf kw' anc locs)).truthy :=
    condTrueOf_eq horig0 halook2
  cases hr : (ev (prepCondition str) (clocalsOf kw' anc locs)).truthy with
  | true =>
    have hstep : execute_condition_step ev io kw' anc s (nm0, i0) =
        .ok { s with
          children := updateById i0 (erasePropN nm0) s.children,
          prevName := "@if", prevVal := true, firstCond := true,
          evalLog := s.evalLog ++ [i0] } := by
      rw [step_dispatch_if hif hn]
      exact stepIf_true_spec halook2 hr
    obtain ⟨u1, u2, u3⟩ := update_facts (i := i0) nm0 hnd hbd
    have hpres1 : ∀ ce' ∈ body, ce'.2 ∈
        topIds (updateById i0 (erasePropN nm0) s.children) := by
      intro ce' hce'
      rw [topIds_updateById i0 _ (erasePropN_idOf nm0)]
      exact hpres ce' (List.mem_cons_of_mem _ hce')
    obtain ⟨s', hfold, c1, c2, c3, c4, c5, c6⟩ :=
      chain_resolved (s := { s with
        children := updateById i0 (erasePropN nm0) s.children,
        prevName := "@if", prevVal := true, firstCond := true,
        evalLog := s.evalLog ++ [i0] })
        hwf (by show ("@if" : String) ∈ validPrevElif; decide)
        rfl rfl u1 u2 hpres1 hdist'
    have hpick : chainPick ev kw' anc orig ((nm0, i0) :: body) = some 0 := by
      rw [chainPick_cons, if_pos (by rw [hct]; exact Or.inr hr)]
    refine ⟨s', ?_, c1, c2, c3, ?_, ?_, ?_, ?_⟩
    · rw [List.foldlM_cons, hstep, except_ok_bind]
      exact hfold
    · intro j hj
      simp only [List.map_cons, List.mem_cons, not_or] at hj
      have h6 : getById j s'.children =
          getById j (updateById i0 (erasePropN nm0) s.children) := c6 j hj.2
      rw [h6, u3 j hj.1]
    · intro j hj hjl
      simp only [List.map_cons, List.mem_cons, not_or] at hj
      rw [c4]
      simp only [List.mem_append, List.mem_singleton, not_or]
      exact ⟨hjl, hj.1⟩
    · intro hnone
      rw [hpick] at hnone
      cases hnone
    · intro t ht
      rw [hpick] at ht
      obtain rfl : (0 : Nat) = t := Option.some.inj ht
      intro k ce' hk
      cases k with
      | zero =>
        obtain rfl : (nm0, i0) = ce' := Option.some.inj hk
        refine ⟨?_, ?_, ?_⟩
        · intro _
          refine ⟨VNode.el i0 tag props locs pos ch, horig0, ?_⟩
          have h6 : getById i0 s'.children =
              getById i0 (updateById i0 (erasePropN nm0) s.children) :=
            c6 i0 hi0_rest
          rw [h6, getById_updateById_self hn _ (erasePropN_idOf nm0)]
        · intro hne
          exact absurd rfl hne
        · intro hlt
          exact absurd hlt (by omega)
      | succ k' =>
        have hk' : body.get? k' = some ce' := hk
        have hce' : ce' ∈ body := List.get?_mem hk'
        refine ⟨?_, ?_, ?_⟩
        · intro h0
          exact absurd h0 (by omega)
        · intro _
          exact c5 ce' hce'
        · intro _
          rw [c4]
          simp only [List.mem_append, List.mem_singleton, not_or]
          refine ⟨hlog ce' (List.mem_cons_of_mem _ hce'), ?_⟩
          intro hc
          exact hi0_rest (hc ▸ List.mem_map_of_mem Prod.snd hce')
  | false =>
    obtain ⟨l', hrem⟩ :=
      Option.isSome_iff_exists.mp (removeById_isSome_of_getById hsome)
    obtain ⟨r1, r2, r3, r4⟩ := remove_facts hrem hnd hbd
    have hstep : execute_condition_step ev io kw' anc s (nm0, i0) =
        .ok { s with children := l', prevName := "@if", prevVal := false,
                     firstCond := true, evalLog := s.evalLog ++ [i0] } := by
      rw [step_dispatch_if hif hn]
      exact stepIf_false_spec halook2 hr hrem
    have hpres1 : ∀ ce' ∈ body, ce'.2 ∈ topIds l' := by
      intro ce' hce'
      have hne : ce'.2 ≠ i0 := by
        intro hc
        exact hi0_rest (hc ▸ List.mem_map_of_mem Prod.snd hce')
      apply mem_topIds_of_getById
      rw [r4 ce'.2 hne]
      intro hc
      exact (getById_eq_none_iff.mp hc)
        (hpres ce' (List.mem_cons_of_mem _ hce'))
    have horig1 : ∀ ce' ∈ body, getById ce'.2 l' = getById ce'.2 orig := by
      intro ce' hce'
      have hne : ce'.2 ≠ i0 := by
        intro hc
        exact hi0_rest (hc ▸ List.mem_map_of_mem Prod.snd hce')
      rw [r4 ce'.2 hne]
      exact horig ce' (List.mem_cons_of_mem _ hce')
    have hlog1 : ∀ ce' ∈ body, ce'.2 ∉ s.evalLog ++ [i0] := by
      intro ce' hce'
      simp only [List.mem_append, List.mem_singleton, not_or]
      refine ⟨hlog ce' (List.mem_cons_of_mem _ hce'), ?_⟩
      intro hc
      exact hi0_rest (hc ▸ List.mem_map_of_mem Prod.snd hce')
    obtain ⟨s', hfold, c1, c2, c3, c5, c6, c7, c8⟩ :=
      chain_unresolved (s := { s with
        children := l', prevName := "@if", prevVal := false,
        firstCond := true, evalLog := s.evalLog ++ [i0] })
        hwf (by show ("@if" : String) ∈ validPrevElif; decide)
        rfl rfl r1 r2 horig1
        (fun ce' hce' => hstrc ce' (List.mem_cons_of_mem _ hce'))
        hpres1 hdist' hlog1
    have hpick : chainPick ev kw' anc orig ((nm0, i0) :: body) =
        (chainPick ev kw' anc orig body).map (· + 1) := by
      rw [chainPick_cons, if_neg]
      rw [hct]
      simp [hnotelse, hr]
    refine ⟨s', ?_, c1, c2, c3, ?_, ?_, ?_, ?_⟩
    · rw [List.foldlM_cons, hstep, except_ok_bind]
      exact hfold
    · intro j hj
      simp only [List.map_cons, List.mem_cons, not_or] at hj
      have h5 : getById j s'.children = getById j l' := c5 j hj.2
      rw [h5, r4 j hj.1]
    · intro j hj hjl
      simp only [List.map_cons, List.mem_cons, not_or] at hj
      apply c6 j hj.2
      simp only [List.mem_append, List.mem_singleton, not_or]
      exact ⟨hjl, hj.1⟩
    · intro hnone
      rw [hpick] at hnone
      have hnone' : chainPick ev kw' anc orig body = none :=
        Option.map_eq_none'.mp hnone
      intro ce' hce'
      rcases List.mem_cons.mp hce' with rfl | hce'
      · rw [← getById_eq_none_iff]
        have h5 : getById i0 s'.children = getById i0 l' := c5 i0 hi0_rest
        rw [h5]
        exact getById_eq_none_iff.mpr r3
      · exact c7 hnone' ce' hce'
    · intro t ht
      rw [hpick] at ht
      obtain ⟨t', ht', rfl⟩ := Option.map_eq_some'.mp ht
      intro k ce' hk
      cases k with
      | zero =>
        obtain rfl : (nm0, i0) = ce' := Option.some.inj hk
        refine ⟨?_, ?_, ?_⟩
        · intro h0
          exact absurd h0 (by omega)
        · intro _
          rw [← getById_eq_none_iff]
          have h5 : getById i0 s'.children = getById i0 l' := c5 i0 hi0_rest
          rw [h5]
          exact getById_eq_none_iff.mpr r3
        · intro hlt
          exact absurd hlt (by omega)
      | succ k' =>
        have hk' : body.get? k' = some ce' := hk
        obtain ⟨d1, d2, d3⟩ := c8 t' ht' k' ce' hk'
        refine ⟨?_, ?_, ?_⟩
        · intro hkt
          exact d1 (by omega)
        · intro hkt
          exact d2 (by omega)
        · intro hlt
          exact d3 (by omega)

/-- C1: Conditional chain resolution is first-true-wins: for every child
    sequence containing an if/elif*/else? chain (a run of accepted
    condition entries shaped if, elif*, else?), when process_conditions
    succeeds, exactly the first-true member of the chain (none, if every
    condition evaluates false and there is no else) remains in the child
    sequence, with its directive attribute removed; every chain member
    after the first true one is removed without its condition being
    evaluated (it never enters the evaluation log).  Identities are
    assumed pairwise distinct and below the fresh-identity bound, and the
    chain members' directives carry string values (an else needs no
    value). -/
theorem conditional_chain_first_true_wins
    (ev : Evaluator) (io : IterOracle) (anc kw vpl : Ctx)
    (children : List VNode) (f0 : Nat) (out : CondSt)
    (cs pre suf body : List (String × Nat)) (nm0 : String) (i0 : Nat)
    (hnd : (topIds children).Nodup)
    (hbd : ∀ i ∈ topIds children, i < f0)
    (hscan : scan_conditions children = .ok cs)
    (hsplit : cs = pre ++ ((nm0, i0) :: body) ++ suf)
    (hif : nm0 ∈ ifNames) (hwf : BodyWF body)
    (hstrc : ∀ ce ∈ (nm0, i0) :: body, ce.1 ∈ elseNames ∨ StrCond children ce)
    (hrun : process_conditions ev io anc kw vpl children f0 = .ok out) :
    (topIds out.children).Nodup ∧
    (chainPick ev (aupd kw vpl) anc children ((nm0, i0) :: body) = none →
      ∀ ce ∈ (nm0, i0) :: body, ce.2 ∉ topIds out.children) ∧
    (∀ t, chainPick ev (aupd kw vpl) anc children ((nm0, i0) :: body) = some t →
      ∀ k ce, ((nm0, i0) :: body).get? k = some ce →
        ((k = t → ∃ n, getById ce.2 children = some n ∧
            getById ce.2 out.children = some (erasePropN ce.1 n)) ∧
         (k ≠ t → ce.2 ∉ topIds out.children) ∧
         (t < k → ce.2 ∉ out.evalLog))) := by
  -- reduce process_conditions to the raw fold
  unfold process_conditions at hrun
  rw [hscan, except_ok_bind] at hrun
  unfold execute_conditions at hrun
  subst hsplit
  rw [List.foldlM_append, List.foldlM_append] at hrun
  obtain ⟨st2, hpreseg, hsuf⟩ := except_bind_ok hrun
  obtain ⟨st1, hpre, hseg⟩ := except_bind_ok hpreseg
  -- facts from the scan
  have hsub := scan_sub hscan
  have hcsnd : ((pre ++ ((nm0, i0) :: body) ++ suf).map Prod.snd).Nodup :=
    hnd.sublist hsub
  simp only [List.map_append, List.map_cons] at hcsnd
  rw [List.nodup_append] at hcsnd
  obtain ⟨hndAB, hndC, hdisABC⟩ := hcsnd
  rw [List.nodup_append] at hndAB
  obtain ⟨hndA, hndB, hdisAB⟩ := hndAB
  have hsegA : ∀ ce ∈ (nm0, i0) :: body, ce.2 ∉ pre.map Prod.snd := by
    intro ce hce hmem
    exact hdisAB hmem (List.mem_map_of_mem Prod.snd hce)
  have hsegC : ∀ ce ∈ (nm0, i0) :: body, ce.2 ∉ suf.map Prod.snd := by
    intro ce hce
    exact hdisABC
      (List.mem_append.mpr (.inr (List.mem_map_of_mem Prod.snd hce)))
  have hentry := scan_entry_node hnd hscan
  have hsegnode : ∀ ce ∈ (nm0, i0) :: body,
      (getById ce.2 children).isSome ∧ ce.2 < f0 := by
    intro ce hce
    have hcecs : ce ∈ pre ++ ((nm0, i0) :: body) ++ suf := by
      refine List.mem_append.mpr (.inl ?_)
      exact List.mem_append.mpr (.inr hce)
    obtain ⟨tg, pr, lo, po, cc, hget, -, -⟩ := hentry ce hcecs
    refine ⟨by rw [hget]; rfl, ?_⟩
    apply hbd
    apply mem_topIds_of_getById
    rw [hget]
    simp
  -- run the prefix
  obtain ⟨⟨g1, g2⟩, hfr1, hframe1, hlog1⟩ :=
    fold_frame hpre hnd hbd
  -- run the chain
  have horig : ∀ ce ∈ (nm0, i0) :: body,
      getById ce.2 st1.children = getById ce.2 children := by
    intro ce hce
    exact hframe1 ce.2 (hsegA ce hce) (hsegnode ce hce).2
  have hpres : ∀ ce ∈ (nm0, i0) :: body, ce.2 ∈ topIds st1.children := by
    intro ce hce
    apply mem_topIds_of_getById
    rw [horig ce hce]
    have hsn := (hsegnode ce hce).1
    intro hc
    rw [hc] at hsn
    exact absurd hsn (by simp)
  have hlogseg : ∀ ce ∈ (nm0, i0) :: body, ce.2 ∉ st1.evalLog := by
    intro ce hce
    exact hlog1 ce.2 (hsegA ce hce) (by simp)
  obtain ⟨st2', hseg', c1, c2, c3, c5, c6, c7, c8⟩ :=
    chain_spec hif hwf g1 g2 horig hstrc hpres hndB hlogseg
  rw [hseg'] at hseg
  obtain rfl : st2' = st2 := Except.ok.inj hseg
  -- run the suffix
  obtain ⟨⟨f1, f2⟩, hfr3, hframe3, hlog3⟩ := fold_frame hsuf c1 c2
  have hsegfr : ∀ ce ∈ (nm0, i0) :: body,
      getById ce.2 out.children = getById ce.2 st2'.children := by
    intro ce hce
    apply hframe3 ce.2 (hsegC ce hce)
    rw [c3]
    exact lt_of_lt_of_le (hsegnode ce hce).2 hfr1
  refine ⟨f1, ?_, ?_⟩
  · intro hnone ce hce
    rw [← getById_eq_none_iff, hsegfr ce hce, getById_eq_none_iff]
    exact c7 hnone ce hce
  · intro t ht k ce hk
    have hce : ce ∈ (nm0, i0) :: body := List.get?_mem hk
    obtain ⟨d1, d2, d3⟩ := c8 t ht k ce hk
    refine ⟨?_, ?_, ?_⟩
    · intro hkt
      obtain ⟨n, hn1, hn2⟩ := d1 hkt
      exact ⟨n, hn1, by rw [hsegfr ce hce]; exact hn2⟩
    · intro hkt
      rw [← getById_eq_none_iff, hsegfr ce hce, getById_eq_none_iff]
      exact d2 hkt
    · intro hlt
      exact hlog3 ce.2 (hsegC ce hce) (d3 hlt)

/-- Evaluator used by concrete witnesses: an expression is true exactly
    when its text is "True". -/
def evTrue : Evaluator := fun s _ => .vbool (decide (s = "True"))

/-- Iteration oracle used by concrete witnesses: no iterations. -/
def ioNone : IterOracle := fun _ _ => []

/-- Concrete child sequence for the C1 witness: an if(False) / elif(True) /
    else chain. -/
def c1children : List VNode :=
  [.el 1 "div" [("@if", .pstr "False")] [] none [],
   .el 2 "p" [("@elif", .pstr "True")] [] none [],
   .el 3 "q" [("@else", .pstr "")] [] none []]

/-- Expected machine state after resolving the C1 witness chain: only the
    elif member survives, with its directive stripped; the else was never
    evaluated. -/
def c1out : CondSt :=
  ⟨[.el 2 "p" [] [] none []], 10, false, "@elif", true, [1, 2]⟩

/-- Witness for C1: on the concrete chain if(False)/elif(True)/else, the
    else member (identity 3) is removed from the child sequence. -/
theorem conditional_chain_first_true_wins_witness :
    (3 : Nat) ∉ topIds c1out.children :=
  ((conditional_chain_first_true_wins evTrue ioNone [] [] [] c1children 10
      c1out [("@if", 1), ("@elif", 2), ("@else", 3)] [] []
      [("@elif", 2), ("@else", 3)] "@if" 1
      (by decide) (by decide) rfl (by simp) (by decide)
      (Or.inl ⟨by decide, Or.inr ⟨by decide, rfl⟩⟩)
      (by
        intro ce hce
        rcases List.mem_cons.mp hce with rfl | hce
        · exact Or.inr ⟨"div", [("@if", .pstr "False")], [], none, [],
            "False", rfl, rfl⟩
        rcases List.mem_cons.mp hce with rfl | hce
        · exact Or.inr ⟨"p", [("@elif", .pstr "True")], [], none, [],
            "True", rfl, rfl⟩
        rcases List.mem_cons.mp hce with rfl | hce
        · exact Or.inl (by decide)
        · simp at hce)
      rfl).2.2 1 rfl 2 ("@else", 3) rfl).2.1 (by decide)

theorem stepElse_post {st : CondSt} {nm : String} {cid : Nat} {s1 : CondSt}
    (h : stepElse st nm cid = .ok s1) : s1.firstCond = false := by
  unfold stepElse at h
  split at h
  · split at h
    · split at h
      · cases h
        rfl
      · cases h
    · cases h
      rfl
  · cases h

/-- After a for or else entry is processed successfully, the machine state
    can never legitimize a following elif: a for leaves previous =
    ("@for", False) and an else clears first_cond (compile.py lines
    527-528, 578). -/
theorem step_post_for_else {ev : Evaluator} {io : IterOracle} {kw' anc : Ctx}
    {st : CondSt} {ce : String × Nat} {s1 : CondSt}
    (h : execute_condition_step ev io kw' anc st ce = .ok s1)
    (hname : ce.1 ∈ forNames ∨ ce.1 ∈ elseNames) :
    ¬ (s1.prevName ∈ validPrevElif ∧ s1.firstCond = true) := by
  unfold execute_condition_step at h
  split at h
  · rcases hname with hfor | helse
    · rw [if_pos hfor] at h
      obtain ⟨hpn, hfc, -, -, -⟩ := stepFor_inv h
      intro hc
      rw [hpn] at hc
      exact absurd hc.1 (by decide)
    · have h1 : ce.1 ∉ forNames := by
        rcases mem_elseNames_cases helse with hh | hh <;> rw [hh] <;> decide
      have h2 : ce.1 ∉ ifNames := by
        rcases mem_elseNames_cases helse with hh | hh <;> rw [hh] <;> decide
      have h3 : ce.1 ∉ elifNames := by
        rcases mem_elseNames_cases helse with hh | hh <;> rw [hh] <;> decide
      rw [if_neg h1, if_neg h2, if_neg h3, if_pos helse] at h
      have hfc := stepElse_post h
      intro hc
      rw [hfc] at hc
      exact absurd hc.2 (by decide)
  · cases h

/-- An elif entry processed in a state that does not legitimize it always
    raises (compile.py lines 554, 567-570); a stale node is an error as
    well. -/
theorem step_elif_error {ev : Evaluator} {io : IterOracle} {kw' anc : Ctx}
    {st : CondSt} {ce : String × Nat}
    (helif : ce.1 ∈ elifNames)
    (hbad : ¬ (st.prevName ∈ validPrevElif ∧ st.firstCond = true)) :
    ∃ msg, execute_condition_step ev io kw' anc st ce = .error msg := by
  unfold execute_condition_step
  cases hg : getById ce.2 st.children with
  | none =>
    exact ⟨"stale condition node", rfl⟩
  | some n =>
    cases n with
    | el i tag props locs pos ch =>
      have h1 : ce.1 ∉ forNames := by
        rcases mem_elifNames_cases helif with hh | hh <;> rw [hh] <;> decide
      have h2 : ce.1 ∉ ifNames := by
        rcases mem_elifNames_cases helif with hh | hh <;> rw [hh] <;> decide
      refine ⟨"py-elif must follow a py-if", ?_⟩
      show (if ce.1 ∈ forNames then stepFor io kw' anc st ce.1 ce.2 tag props locs ch
            else if ce.1 ∈ ifNames then stepIf ev kw' anc st ce.1 ce.2 props locs
            else if ce.1 ∈ elifNames then stepElif ev kw' anc st ce.1 ce.2 props locs
            else if ce.1 ∈ elseNames then stepElse st ce.1 ce.2
            else Except.error "Unkown condition property") = _
      rw [if_neg h1, if_neg h2, if_pos helif]
      exact stepElif_invalid_spec (fun hc => hbad ⟨hc.1, hc.2⟩)
    | text v => exact ⟨"stale condition node", rfl⟩
    | comment v => exact ⟨"stale condition node", rfl⟩
    | doctype => exact ⟨"stale condition node", rfl⟩

/-- C6: an elif directive whose immediately preceding accepted sibling in
    the scanned condition list is not an if/elif (it is a for or an else,
    or there is no predecessor at all) always makes process_conditions
    raise, regardless of the evaluator: the chain-order violation is never
    silently skipped. -/
theorem elif_without_valid_predecessor_errors
    (ev : Evaluator) (io : IterOracle) (anc kw vpl : Ctx)
    (children : List VNode) (f0 : Nat)
    (cs precs tailcs : List (String × Nat)) (ce : String × Nat)
    (hscan : scan_conditions children = .ok cs)
    (helif : ce.1 ∈ elifNames)
    (hpos : cs = ce :: tailcs ∨
      ∃ pc, (pc.1 ∈ forNames ∨ pc.1 ∈ elseNames) ∧
        cs = precs ++ pc :: ce :: tailcs) :
    ∃ msg, process_conditions ev io anc kw vpl children f0 = .error msg := by
  unfold process_conditions
  rw [hscan, except_ok_bind]
  unfold execute_conditions
  rcases hpos with rfl | ⟨pc, hpc, rfl⟩
  · rw [List.foldlM_cons]
    obtain ⟨msg, hmsg⟩ := @step_elif_error ev io (aupd kw vpl) anc
      ⟨children, f0, false, "@for", true, []⟩ _ helif
      (fun hc => Bool.false_ne_true hc.2)
    exact ⟨msg, by rw [hmsg]; rfl⟩
  · rw [List.foldlM_append]
    cases hpre : precs.foldlM (execute_condition_step ev io (aupd kw vpl) anc)
        ⟨children, f0, false, "@for", true, []⟩ with
    | error e =>
      exact ⟨e, rfl⟩
    | ok s =>
      rw [except_ok_bind, List.foldlM_cons]
      cases hstep : execute_condition_step ev io (aupd kw vpl) anc s pc with
      | error e =>
        exact ⟨e, rfl⟩
      | ok s1 =>
        rw [except_ok_bind, List.foldlM_cons]
        obtain ⟨msg, hmsg⟩ := step_elif_error helif (step_post_for_else hstep hpc)
        exact ⟨msg, by rw [hmsg]; rfl⟩

/-- Concrete child sequence for the C6 witness: a lone elif with a true
    condition. -/
def c6children : List VNode :=
  [.el 1 "div" [("@elif", .pstr "True")] [] none []]

/-- Python `s.startswith(p)`. -/
def pyStartsWith (s p : String) : Bool := p.toList.isPrefixOf s.toList

/-- Python `s.lstrip(chars)`: drop leading characters belonging to the
    set. -/
def lstripChars (cs : List Char) (s : String) : String :=
  String.mk (s.toList.dropWhile (fun c => cs.contains c))

/-- Python value stored into a locals dict for a property value kept
    as-is. -/
def PVal.toVal : PVal → Val
  | .pstr s => .vstr s
  | .pbool b => .vbool b
  | .pval v => v

/-- Registered component data as consumed by replace_components
    (compile.py lines 284, 298-300): the template element and the python /
    script / style side-node lists. -/
structure CompEntry where
  component : VNode
  python : List VNode
  script : List VNode
  style : List VNode

/-- Locals attached to a substituted component (replace_components lines
    268-282): each call-site property is evaluated when prefixed with ":"
    or "py-" (key stripped of those prefix characters, value from the
    evaluator under vp.locals updated with kwargs), substituted when it
    contains an interpolation marker (under kwargs), copied otherwise;
    finally the call site's children are bound under "children". -/
def call_site_locals (ev : Evaluator) (pvb : Subst) (vpl kwargs : Ctx)
    (props : List (String × PVal)) (children : List VNode) :
    List (String × Val) :=
  ainsert "children" (Val.vnodes children)
    (props.foldl (fun acc p =>
      if pyStartsWith p.1 ":" || pyStartsWith p.1 "py-" then
        ainsert (lstripChars ['p', 'y', '-'] (lstripChars [':'] p.1))
          (ev (p.2.pyStr) (aupd vpl kwargs)) acc
      else if containsMarker (p.2.pyStr) then
        ainsert p.1 (.vstr (pvb (p.2.pyStr) kwargs)) acc
      else ainsert p.1 p.2.toVal acc) [])

/-- Search order of __has_py_condition (compile.py lines 307-320). -/
def hasPyCondAux (props : List (String × PVal)) :
    List String → Option (String × PVal)
  | [] => none
  | c :: rest =>
    match alookup c props with
    | some v => some (c, v)
    | none => hasPyCondAux props rest

/-- __has_py_condition (compile.py lines 307-320): the first directive of
    the fixed spelling list present among the node's properties, with its
    value. -/
def has_py_condition (props : List (String × PVal)) : Option (String × PVal) :=
  hasPyCondAux props pyConditionNames

/-- The substituted node for one component call site (replace_components
    lines 284-292): a copy of the template whose locals are updated with
    the call-site locals; when the call site carries a conditional/loop
    directive, that directive name and value are set on the copy's
    properties and the same key is dropped from its locals. -/
def mkRnode (ev : Evaluator) (pvb : Subst) (vpl kwargs : Ctx)
    (entry : CompEntry) (props : List (String × PVal))
    (children : List VNode) : VNode :=
  match entry.component with
  | .el i tag cprops clocs cpos cch =>
    match has_py_condition props with
    | some cv =>
      .el i tag (ainsert cv.1 cv.2 cprops)
        (aerase cv.1
          (aupd clocs (call_site_locals ev pvb vpl kwargs props children)))
        cpos cch
    | none =>
      .el i tag cprops
        (aupd clocs (call_site_locals ev pvb vpl kwargs props children))
        cpos cch
  | n => n

/-- Tag match of find(node, ["element", {"tag": name}]). -/
def isTagName (name : String) : VNode → Bool
  | .el _ tag _ _ _ _ => tag = name
  | _ => false

mutual
/-- Does a node's subtree contain an element with the given tag? -/
def containsTag (t : String) : VNode → Bool
  | .el _ tag _ _ _ ch => tag = t || containsTagL t ch
  | _ => false

/-- List version of containsTag. -/
def containsTagL (t : String) : List VNode → Bool
  | [] => false
  | n :: rest => containsTag t n || containsTagL t rest
end

/-- The call-site test of find(node, ["element", {"tag": name}]): the
    matched element's properties and children when the node is an element
    with the component's tag. -/
def siteProps (name : String) : VNode → Option (List (String × PVal) × List VNode)
  | .el _ tag props _ _ ch => if tag = name then some (props, ch) else none
  | _ => none

mutual
/-- Descend into one node looking for the first call site below it. -/
def substFirstNode (ev : Evaluator) (pvb : Subst) (vpl kwargs : Ctx)
    (name : String) (entry : CompEntry) : VNode → Option VNode
  | .el i tag props locs pos ch =>
    (substFirstList ev pvb vpl kwargs name entry ch).map
      (fun ch' => .el i tag props locs pos ch')
  | _ => none

/-- One find-and-replace round of the replace_components while loop
    (compile.py lines 266-305): locate the first element with the
    component's tag in pre-order and replace it, inside its parent's child
    sequence, by the component's python, script and style side-node lists
    followed by the substituted template node; `none` when no call site is
    left. -/
def substFirstList (ev : Evaluator) (pvb : Subst) (vpl kwargs : Ctx)
    (name : String) (entry : CompEntry) : List VNode → Option (List VNode)
  | [] => none
  | n :: rest =>
    match siteProps name n with
    | some pc =>
      some (entry.python ++ entry.script ++ entry.style ++
        [mkRnode ev pvb vpl kwargs entry pc.1 pc.2] ++ rest)
    | none =>
      match substFirstNode ev pvb vpl kwargs name entry n with
      | some n' => some (n' :: rest)
      | none =>
        (substFirstList ev pvb vpl kwargs name entry rest).map (n :: ·)
end

/-- The while loop of replace_components for one component, fuel-bounded
    (the source loop re-finds from the root after every substitution and
    does not terminate when a template contains its own tag). -/
def replace_component_rounds (ev : Evaluator) (pvb : Subst) (vpl kwargs : Ctx)
    (name : String) (entry : CompEntry) :
    Nat → List VNode → List VNode
  | 0, children => children
  | fuel + 1, children =>
    match substFirstList ev pvb vpl kwargs name entry children with
    | none => children
    | some ch' => replace_component_rounds ev pvb vpl kwargs name entry fuel ch'

/-- replace_components (compile.py lines 251-305): process every registered
    component in order, substituting every remaining call site. -/
def replace_components (ev : Evaluator) (pvb : Subst) (vpl kwargs : Ctx)
    (fuel : Nat) (comps : List (String × CompEntry))
    (children : List VNode) : List VNode :=
  comps.foldl (fun ch c =>
    replace_component_rounds ev pvb vpl kwargs c.1 c.2 fuel ch) children

/-- Count of elements with a given tag at the top level of a child
    sequence. -/
def countTagTop (t : String) (l : List VNode) : Nat :=
  (l.filter (fun n => isTagName t n)).length

/-- Doctype test of the guard in Compiler.compile (compile.py line 122). -/
def isDocTypeNode : VNode → Bool
  | .doctype => true
  | _ => false

/-- The caller-visible effect of Compiler.compile on the input tree
    (compile.py lines 117-137): before any dispatch, a DocType node is
    inserted at position 0 of the caller's own tree when no doctype child
    is present; all later passes run on a deepcopy made inside __html
    (line 143), so this insertion is the only mutation the caller's tree
    receives. -/
def compile_caller_tree (children : List VNode) : List VNode :=
  if (children.filter (fun n => isDocTypeNode n)).length = 0 then
    VNode.doctype :: children
  else children

mutual
/-- Modelled from the spec: replace_node (imported in compile.py from the
    utilities package, whose source is not under src/) as used at
    compile.py line 356 — every reserved `slot` element inside the node's
    subtree is replaced in place by the child nodes bound under the
    "children" local (spec section on component slot content). -/
def replaceSlots (repl : List VNode) : VNode → List VNode
  | .el i tag props locs pos ch =>
    if tag = "slot" then repl
    else [.el i tag props locs pos (replaceSlotsL repl ch)]
  | n => [n]

/-- List version of replaceSlots. -/
def replaceSlotsL (repl : List VNode) : List VNode → List VNode
  | [] => []
  | n :: rest => replaceSlots repl n ++ replaceSlotsL repl rest
end

/-- The slot-replacement step performed on an element before its children
    are processed (compile.py lines 354-356): when the element's locals
    bind "children" to a node list, reserved slot elements among its
    children are replaced by that list. -/
def slotKids (locs : List (String × Val)) (ch : List VNode) : List VNode :=
  match alookup "children" locs with
  | some (.vnodes ns) => replaceSlotsL ns ch
  | _ => ch

/-- An element after the slot-replacement step; other nodes unchanged. -/
def slotStepNode : VNode → VNode
  | .el i tag props locs pos ch => .el i tag props locs pos (slotKids locs ch)
  | n => n

/-- process_child of apply_python (compile.py lines 345-380), fuel-bounded
    on tree depth: an element first has its slots replaced, then its
    properties are rebuilt (":"/"py-"-prefixed keys evaluated under the
    child environment updated with vp.locals, marker-bearing values
    substituted under the child environment, others copied), and its
    children are processed under the environment extended with the
    element's locals; a text node whose parent's tag is neither "script"
    nor "style" and whose value carries an interpolation marker is
    substituted under the current environment; everything else is left
    unchanged. -/
def apply_python_child (ev : Evaluator) (pvb : Subst) (vpl : Ctx) :
    Nat → Option String → Ctx → VNode → VNode
  | 0, _, _, n => n
  | fuel + 1, parentTag, localEnv, n =>
    match slotStepNode n with
    | .el i tag props locs pos ch =>
      let le := aupd localEnv locs
      let props' := props.foldl (fun acc p =>
        if pyStartsWith p.1 ":" || pyStartsWith p.1 "py-" then
          ainsert (lstripChars ['p', 'y', '-'] (lstripChars [':'] p.1))
            (.pval (ev (p.2.pyStr) (aupd le vpl))) acc
        else if containsMarker (p.2.pyStr) then
          ainsert p.1 (.pstr (pvb (p.2.pyStr) le)) acc
        else ainsert p.1 p.2 acc) []
      .el i tag props' locs pos
        (ch.map (apply_python_child ev pvb vpl fuel (some tag) le))
    | .text v =>
      if (parentTag != some "script" && parentTag != some "style")
          && containsMarker v then .text (pvb v localEnv) else .text v
    | n => n

/-- apply_python (compile.py lines 339-383): process the root's children
    under the call kwargs; the root carries no tag. -/
def apply_python (ev : Evaluator) (pvb : Subst) (vpl kwargs : Ctx)
    (fuel : Nat) (children : List VNode) : List VNode :=
  children.map (apply_python_child ev pvb vpl fuel none kwargs)

/-- The evaluation environment apply_python uses along a child-index path
    (compile.py lines 360, 374): entering an element updates the ambient
    environment with that element's locals, and the walk follows the
    slot-replaced children. `envAt l env p` is the environment in force for
    the subtree reached from child sequence `l` under ambient environment
    `env` along `p`. -/
def envAt (l : List VNode) (env : Ctx) : List Nat → Option Ctx
  | [] => some env
  | i :: rest =>
    match l.get? i with
    | some n =>
      match slotStepNode n with
      | .el _ _ _ locs _ ch => envAt ch (aupd env locs) rest
      | _ => none
    | none => none

/-- No element entered along the path binds the given name in its
    locals. -/
def NoRebind (x : String) : List VNode → List Nat → Prop
  | _, [] => True
  | l, i :: rest => ∀ n, l.get? i = some n →
    match slotStepNode n with
    | .el _ _ _ locs _ ch => x ∉ locs.map Prod.fst ∧ NoRebind x ch rest
    | _ => True

/-- Witness for C6: a lone elif (no preceding accepted sibling) aborts
    process_conditions even though its condition is true. -/
theorem elif_without_valid_predecessor_errors_witness :
    ∃ msg, process_conditions evTrue ioNone [] [] [] c6children 5 = .error msg :=
  elif_without_valid_predecessor_errors evTrue ioNone [] [] [] c6children 5
    [("@elif", 1)] [] [] ("@elif", 1) rfl (by decide) (Or.inl rfl)

/-- Concrete caller tree for the C4 counterexample: one html element and
    no doctype. -/
def c4tree : List VNode := [.el 1 "html" [] [] none []]

/-- C4 counterexample: a top-level Compiler.compile call on a tree without
    a doctype prepends a DocType node to the caller's own child sequence
    (compile.py lines 122-124 run before __html's deepcopy at line 143),
    so the caller's tree does not stay structurally unchanged. -/
theorem compile_leaves_caller_tree_unchanged_counterexample :
    compile_caller_tree c4tree = VNode.doctype :: c4tree ∧
    (compile_caller_tree c4tree).length ≠ c4tree.length :=
  ⟨rfl, by decide⟩

/-- When the caller's tree already contains a doctype child,
    Compiler.compile leaves the caller's tree unchanged — every other
    mutation of the compilation happens on the private deepcopy made in
    __html. -/
theorem compile_caller_tree_effect (children : List VNode)
    (h : VNode.doctype ∈ children) :
    compile_caller_tree children = children := by
  have hm : VNode.doctype ∈ children.filter (fun n => isDocTypeNode n) :=
    List.mem_filter.mpr ⟨h, rfl⟩
  unfold compile_caller_tree
  rw [if_neg]
  intro h0
  rw [List.eq_nil_of_length_eq_zero h0] at hm
  exact List.not_mem_nil _ hm

/-- The doctype-present branch at a concrete tree. -/
theorem compile_caller_tree_effect_witness :
    compile_caller_tree [VNode.doctype, .el 1 "html" [] [] none []] =
      [VNode.doctype, .el 1 "html" [] [] none []] :=
  compile_caller_tree_effect [VNode.doctype, .el 1 "html" [] [] none []]
    (List.mem_cons_self _ _)

theorem containsTagL_append (t : String) (a b : List VNode) :
    containsTagL t (a ++ b) = (containsTagL t a || containsTagL t b) := by
  induction a with
  | nil => rw [List.nil_append, containsTagL]; rfl
  | cons n rest ih =>
    rw [List.cons_append, containsTagL, containsTagL, ih, Bool.or_assoc]

theorem isTagName_false_of_not_contains {t : String} {n : VNode}
    (h : containsTag t n = false) : isTagName t n = false := by
  cases n with
  | el i tag props locs pos ch =>
    rw [containsTag, Bool.or_eq_false_iff] at h
    rw [isTagName]; exact h.1
  | text v => rfl
  | comment v => rfl
  | doctype => rfl

theorem siteProps_none_of_not_contains {name : String} {n : VNode}
    (h : containsTag name n = false) : siteProps name n = none := by
  cases n with
  | el i tag props locs pos ch =>
    have hh : (decide (tag = name) || containsTagL name ch) = false := h
    show (if tag = name then some (props, ch) else none) = none
    rw [if_neg (of_decide_eq_false (Bool.or_eq_false_iff.mp hh).1)]
  | text v => rfl
  | comment v => rfl
  | doctype => rfl

mutual
theorem substFirstNode_none_of_noTag (ev : Evaluator) (pvb : Subst)
    (vpl kwargs : Ctx) (name : String) (entry : CompEntry) :
    (n : VNode) → containsTag name n = false →
      substFirstNode ev pvb vpl kwargs name entry n = none
  | .el i tag props locs pos ch, h => by
    have hh : (decide (tag = name) || containsTagL name ch) = false := h
    rw [substFirstNode, substFirstList_none_of_noTag ev pvb vpl kwargs name
      entry ch (Bool.or_eq_false_iff.mp hh).2]
    rfl
  | .text v, _ => rfl
  | .comment v, _ => rfl
  | .doctype, _ => rfl

theorem substFirstList_none_of_noTag (ev : Evaluator) (pvb : Subst)
    (vpl kwargs : Ctx) (name : String) (entry : CompEntry) :
    (l : List VNode) → containsTagL name l = false →
      substFirstList ev pvb vpl kwargs name entry l = none
  | [], _ => rfl
  | n :: rest, h => by
    have hh : (containsTag name n || containsTagL name rest) = false := h
    have h1 := (Bool.or_eq_false_iff.mp hh).1
    have h2 := (Bool.or_eq_false_iff.mp hh).2
    rw [substFirstList, siteProps_none_of_not_contains h1,
      substFirstNode_none_of_noTag ev pvb vpl kwargs name entry n h1,
      substFirstList_none_of_noTag ev pvb vpl kwargs name entry rest h2]
    rfl
end

theorem substFirstList_splice (ev : Evaluator) (pvb : Subst) (vpl kwargs : Ctx)
    (name : String) (entry : CompEntry) (pre post : List VNode) (i : Nat)
    (props : List (String × PVal)) (locs : List (String × Val))
    (pos : Option (Nat × Nat)) (ch : List VNode)
    (hpre : containsTagL name pre = false) :
    substFirstList ev pvb vpl kwargs name entry
        (pre ++ .el i name props locs pos ch :: post) =
      some (pre ++ (entry.python ++ entry.script ++ entry.style ++
        [mkRnode ev pvb vpl kwargs entry props ch] ++ post)) := by
  induction pre with
  | nil =>
    have hsp : siteProps name (.el i name props locs pos ch) =
        some (props, ch) := by
      show (if name = name then some (props, ch) else none) = some (props, ch)
      rw [if_pos rfl]
    rw [List.nil_append, substFirstList, hsp]
    rfl
  | cons p pre' ih =>
    have hh : (containsTag name p || containsTagL name pre') = false := hpre
    have h1 := (Bool.or_eq_false_iff.mp hh).1
    have h2 := (Bool.or_eq_false_iff.mp hh).2
    rw [List.cons_append, substFirstList, siteProps_none_of_not_contains h1,
      substFirstNode_none_of_noTag ev pvb vpl kwargs name entry p h1, ih h2]
    rfl

theorem containsTag_mkRnode {name : String} {entry : CompEntry}
    (h : containsTag name entry.component = false) (ev : Evaluator)
    (pvb : Subst) (vpl kwargs : Ctx) (props : List (String × PVal))
    (ch : List VNode) :
    containsTag name (mkRnode ev pvb vpl kwargs entry props ch) = false := by
  unfold mkRnode
  cases hc : entry.component with
  | el i tag cprops clocs cpos cch =>
    rw [hc] at h
    have hh : (decide (tag = name) || containsTagL name cch) = false := h
    cases hpc : has_py_condition props with
    | some cv => exact hh
    | none => exact hh
  | text v => rw [hc] at h; exact h
  | comment v => rw [hc] at h; exact h
  | doctype => rw [hc] at h; exact h

theorem containsTagL_singleton (t : String) (n : VNode) :
    containsTagL t [n] = containsTag t n := by
  rw [containsTagL, containsTagL, Bool.or_false]

/-- Shared oracles for the replace_components witnesses: an evaluator
    returning None and the identity substitution. -/
def evC3 : Evaluator := fun _ _ => .vnone

/-- Identity substitution oracle. -/
def sbC3 : Subst := fun s _ => s

/-- Concrete registered component for C3: an empty div template with one
    style side node. -/
def c3entry : CompEntry :=
  { component := .el 0 "div" [] [] none []
    python := []
    script := []
    style := [.el 5 "style" [] [] none [.text "css"]] }

/-- Concrete caller children for C3: two call sites of the same
    component. -/
def c3children : List VNode :=
  [.el 1 "cmpt" [] [] none [], .el 2 "cmpt" [] [] none []]

/-- C3 counterexample: a tree with two call sites of one registered
    component ends the replace_components pass with the component's style
    side node present twice, not once — the splice at compile.py lines
    294-304 re-emits the side nodes at every occurrence and no cache or
    dedup exists. -/
theorem component_side_nodes_hoisted_once_counterexample :
    countTagTop "cmpt" c3children = 2 ∧
    countTagTop "style"
      (replace_components evC3 sbC3 [] [] 3 [("cmpt", c3entry)] c3children) = 2 :=
  ⟨rfl, rfl⟩

/-- C3 (amended): replace_components emits the component's python, script
    and style side-node lists afresh at every call-site substitution: with
    two call sites of the component (and its tag occurring nowhere else,
    in its own template or side nodes included), two rounds of the
    while loop splice the side nodes at both positions and a further round
    finds nothing. -/
theorem component_side_nodes_at_every_occurrence
    (ev : Evaluator) (pvb : Subst) (vpl kwargs : Ctx) (name : String)
    (entry : CompEntry) (pre mid post : List VNode) (i1 i2 : Nat)
    (props1 : List (String × PVal)) (locs1 : List (String × Val))
    (pos1 : Option (Nat × Nat)) (ch1 : List VNode)
    (props2 : List (String × PVal)) (locs2 : List (String × Val))
    (pos2 : Option (Nat × Nat)) (ch2 : List VNode) (f : Nat)
    (hpre : containsTagL name pre = false)
    (hmid : containsTagL name mid = false)
    (hpost : containsTagL name post = false)
    (hsides : containsTagL name
      (entry.python ++ entry.script ++ entry.style) = false)
    (hcomp : containsTag name entry.component = false) :
    replace_component_rounds ev pvb vpl kwargs name entry (f + 3)
        (pre ++ .el i1 name props1 locs1 pos1 ch1 ::
          (mid ++ .el i2 name props2 locs2 pos2 ch2 :: post)) =
      pre ++ entry.python ++ entry.script ++ entry.style ++
        [mkRnode ev pvb vpl kwargs entry props1 ch1] ++ mid ++
        entry.python ++ entry.script ++ entry.style ++
        [mkRnode ev pvb vpl kwargs entry props2 ch2] ++ post := by
  have hb1 : containsTag name
      (mkRnode ev pvb vpl kwargs entry props1 ch1) = false :=
    containsTag_mkRnode hcomp ev pvb vpl kwargs props1 ch1
  have hb2 : containsTag name
      (mkRnode ev pvb vpl kwargs entry props2 ch2) = false :=
    containsTag_mkRnode hcomp ev pvb vpl kwargs props2 ch2
  have hB : containsTagL name (entry.python ++ entry.script ++ entry.style ++
      [mkRnode ev pvb vpl kwargs entry props1 ch1]) = false := by
    rw [containsTagL_append, hsides, containsTagL_singleton, hb1]
    rfl
  have hpre2 : containsTagL name
      (pre ++ (entry.python ++ entry.script ++ entry.style ++
        [mkRnode ev pvb vpl kwargs entry props1 ch1] ++ mid)) = false := by
    rw [containsTagL_append, hpre, containsTagL_append, hB, hmid]
    rfl
  have r1 := substFirstList_splice ev pvb vpl kwargs name entry pre
    (mid ++ .el i2 name props2 locs2 pos2 ch2 :: post) i1 props1 locs1 pos1
    ch1 hpre
  have r2 := substFirstList_splice ev pvb vpl kwargs name entry
    (pre ++ (entry.python ++ entry.script ++ entry.style ++
      [mkRnode ev pvb vpl kwargs entry props1 ch1] ++ mid)) post i2 props2
    locs2 pos2 ch2 hpre2
  have r3 : substFirstList ev pvb vpl kwargs name entry
      ((pre ++ (entry.python ++ entry.script ++ entry.style ++
        [mkRnode ev pvb vpl kwargs entry props1 ch1] ++ mid)) ++
       (entry.python ++ entry.script ++ entry.style ++
        [mkRnode ev pvb vpl kwargs entry props2 ch2] ++ post)) = none := by
    refine substFirstList_none_of_noTag ev pvb vpl kwargs name entry _ ?_
    rw [containsTagL_append, hpre2, containsTagL_append, containsTagL_append,
      hsides, containsTagL_singleton, hb2, hpost]
    rfl
  show replace_component_rounds ev pvb vpl kwargs name entry (f + 2 + 1)
    (pre ++ .el i1 name props1 locs1 pos1 ch1 ::
      (mid ++ .el i2 name props2 locs2 pos2 ch2 :: post)) = _
  rw [replace_component_rounds, r1]
  show replace_component_rounds ev pvb vpl kwargs name entry (f + 1 + 1)
    (pre ++ (entry.python ++ entry.script ++ entry.style ++
      [mkRnode ev pvb vpl kwargs entry props1 ch1] ++
      (mid ++ .el i2 name props2 locs2 pos2 ch2 :: post))) = _
  have hsh : pre ++ (entry.python ++ entry.script ++ entry.style ++
      [mkRnode ev pvb vpl kwargs entry props1 ch1] ++
      (mid ++ .el i2 name props2 locs2 pos2 ch2 :: post)) =
      (pre ++ (entry.python ++ entry.script ++ entry.style ++
        [mkRnode ev pvb vpl kwargs entry props1 ch1] ++ mid)) ++
      .el i2 name props2 locs2 pos2 ch2 :: post := by
    simp [List.append_assoc]
  rw [hsh, replace_component_rounds, r2]
  show replace_component_rounds ev pvb vpl kwargs name entry (f + 1)
    ((pre ++ (entry.python ++ entry.script ++ entry.style ++
      [mkRnode ev pvb vpl kwargs entry props1 ch1] ++ mid)) ++
     (entry.python ++ entry.script ++ entry.style ++
      [mkRnode ev pvb vpl kwargs entry props2 ch2] ++ post)) = _
  rw [replace_component_rounds, r3]
  simp [List.append_assoc]

/-- C3 amended-theorem witness: the two-call-site tree of the
    counterexample, instantiated concretely. -/
theorem component_side_nodes_at_every_occurrence_witness :
    replace_component_rounds evC3 sbC3 [] [] "cmpt" c3entry 3
        ([] ++ .el 1 "cmpt" [] [] none [] ::
          ([] ++ .el 2 "cmpt" [] [] none [] :: [])) =
      [] ++ c3entry.python ++ c3entry.script ++ c3entry.style ++
        [mkRnode evC3 sbC3 [] [] c3entry [] []] ++ [] ++
        c3entry.python ++ c3entry.script ++ c3entry.style ++
        [mkRnode evC3 sbC3 [] [] c3entry [] []] ++ [] :=
  component_side_nodes_at_every_occurrence evC3 sbC3 [] [] "cmpt" c3entry
    [] [] [] 1 2 [] [] none [] [] [] none [] 0 rfl rfl rfl rfl rfl

/-- Properties of an element node; empty for non-elements. -/
def propsOf : VNode → List (String × PVal)
  | .el _ _ props _ _ _ => props
  | _ => []

theorem hasPyCondAux_unique {props : List (String × PVal)} {d : String}
    {v : PVal} (hd : alookup d props = some v) :
    (names : List String) → d ∈ names →
    (∀ c ∈ names, (alookup c props).isSome → c = d) →
    hasPyCondAux props names = some (d, v)
  | [], hmem, _ => absurd hmem (List.not_mem_nil d)
  | c :: rest, hmem, huniq => by
    rw [hasPyCondAux]
    cases hc : alookup c props with
    | some w =>
      have hcd : c = d := huniq c (List.mem_cons_self c rest)
        (by rw [hc]; rfl)
      subst hcd
      rw [hc] at hd
      show some (c, w) = some (c, v)
      rw [Option.some_inj.mp hd]
    | none =>
      have hdr : d ∈ rest := by
        rcases List.mem_cons.mp hmem with hcd | hh
        · rw [← hcd] at hc
          rw [hc] at hd
          exact Option.noConfusion hd
        · exact hh
      exact hasPyCondAux_unique hd rest hdr
        (fun c' hc' hs => huniq c' (List.mem_cons_of_mem c hc') hs)

/-- C9: a component call site carrying exactly one conditional/loop
    directive among its properties has that directive name and value
    copied onto the properties of the substituted template root
    (compile.py lines 288-292 with __has_py_condition, lines 307-320), so
    the later condition passes still see it. -/
theorem call_site_directive_copied_to_substituted_root
    (ev : Evaluator) (pvb : Subst) (vpl kwargs : Ctx) (entry : CompEntry)
    (ci : Nat) (ct : String) (cprops : List (String × PVal))
    (clocs : List (String × Val)) (cpos : Option (Nat × Nat))
    (cch : List VNode)
    (hcomp : entry.component = .el ci ct cprops clocs cpos cch)
    (props : List (String × PVal)) (children : List VNode) (d : String)
    (v : PVal) (hd : alookup d props = some v) (hmem : d ∈ pyConditionNames)
    (huniq : ∀ c ∈ pyConditionNames, (alookup c props).isSome → c = d) :
    alookup d (propsOf (mkRnode ev pvb vpl kwargs entry props children)) =
      some v := by
  have hpc : has_py_condition props = some (d, v) :=
    hasPyCondAux_unique hd pyConditionNames hmem huniq
  unfold mkRnode
  rw [hcomp, hpc]
  show alookup d (ainsert d v cprops) = some v
  rw [alookup_ainsert, if_pos rfl]

/-- C9 witness: a call site holding a single @if directive. -/
theorem call_site_directive_copied_to_substituted_root_witness :
    alookup "@if" (propsOf (mkRnode evC3 sbC3 [] [] c3entry
      [("class", .pstr "big"), ("@if", .pstr "cond")] [])) =
      some (.pstr "cond") :=
  call_site_directive_copied_to_substituted_root evC3 sbC3 [] [] c3entry
    0 "div" [] [] none [] rfl
    [("class", .pstr "big"), ("@if", .pstr "cond")] [] "@if" (.pstr "cond")
    rfl (by decide) (by decide)

/-- Substitution oracle for the C8 counterexample: rewrites every block to
    a fixed witness string. -/
def c8sub : Subst := fun _ _ => "SUBSTITUTED"

/-- C8 counterexample: a marker-bearing text node whose parent is a script
    element passes through apply_python unchanged — the guard at
    compile.py line 377 (`child.parent.tag not in ["script", "style"]`)
    suppresses the substitution itself, not merely formatting, even though
    the substitution oracle would have rewritten the text. -/
theorem preformatted_text_substituted_counterexample :
    apply_python_child evC3 c8sub [] 1 (some "script") [] (.text "{x}") =
      .text "{x}" ∧
    c8sub "{x}" [] ≠ "{x}" ∧ containsMarker "{x}" = true :=
  ⟨rfl, by decide, rfl⟩

/-- C8 (amended): a text node under a "script" or "style" parent is never
    substituted by apply_python, whatever its content; under any other
    parent a marker-bearing text node is substituted with the current
    environment (compile.py lines 375-380). -/
theorem preformatted_text_substitution (ev : Evaluator) (pvb : Subst)
    (vpl env : Ctx) (fuel : Nat) (pt : Option String) (s : String) :
    (pt = some "script" ∨ pt = some "style" →
      apply_python_child ev pvb vpl (fuel + 1) pt env (.text s) = .text s) ∧
    ((pt != some "script") = true → (pt != some "style") = true →
      containsMarker s = true →
      apply_python_child ev pvb vpl (fuel + 1) pt env (.text s) =
        .text (pvb s env)) := by
  constructor
  · rintro (rfl | rfl) <;> rfl
  · intro h1 h2 hm
    show (if ((pt != some "script" && pt != some "style") &&
        containsMarker s) = true then VNode.text (pvb s env)
      else VNode.text s) = VNode.text (pvb s env)
    rw [h1, h2, hm]
    rfl

/-- C8 amended-theorem witness: the same marker text under a script parent
    and under a paragraph parent. -/
theorem preformatted_text_substitution_witness :
    apply_python_child evC3 c8sub [] 1 (some "script") [] (.text "{x}") =
      .text "{x}" ∧
    apply_python_child evC3 c8sub [] 1 (some "p") [] (.text "{x}") =
      .text (c8sub "{x}" []) :=
  ⟨(preformatted_text_substitution evC3 c8sub [] [] 0 (some "script")
      "{x}").1 (Or.inl rfl),
   (preformatted_text_substitution evC3 c8sub [] [] 0 (some "p") "{x}").2
      rfl rfl rfl⟩

theorem envAt_lookup_pres (x : String) :
    (q : List Nat) → (ch : List VNode) → (env env' : Ctx) →
    envAt ch env q = some env' → NoRebind x ch q →
    alookup x env' = alookup x env
  | [], ch, env, env', h, _ => by
    have hh : some env = some env' := h
    rw [← Option.some_inj.mp hh]
  | i :: rest, ch, env, env', h, hnr => by
    cases hg : ch.get? i with
    | none =>
      rw [envAt, hg] at h
      exact Option.noConfusion h
    | some n =>
      have h2 : (match slotStepNode n with
        | VNode.el _ _ _ locs _ kids => envAt kids (aupd env locs) rest
        | _ => none) = some env' := by
        rw [envAt, hg] at h
        exact h
      have hnrn := hnr n hg
      cases n with
      | el j tg props locs pos kids =>
        have h3 : envAt (slotKids locs kids) (aupd env locs) rest =
            some env' := h2
        have hx : x ∉ List.map Prod.fst locs ∧
            NoRebind x (slotKids locs kids) rest := hnrn
        rw [envAt_lookup_pres x rest (slotKids locs kids) (aupd env locs)
          env' h3 hx.2]
        exact alookup_aupd_not_mem x env locs hx.1
      | text v => exact Option.noConfusion h2
      | comment v => exact Option.noConfusion h2
      | doctype => exact Option.noConfusion h2

/-- C7: a binding set in an element's locals (context map) is, under the
    environment threading of apply_python (compile.py lines 360, 374), in
    force for that element and every descendant path below it that does
    not rebind the name, and absent along every sibling path (any other
    child index) that does not itself bind it, provided the ambient
    environment does not already carry it. -/
theorem context_binding_scoped_to_subtree
    (sibs : List VNode) (env : Ctx) (x : String) (v : Val) (i : Nat)
    (ei : Nat) (et : String) (eprops : List (String × PVal))
    (elocs : List (String × Val)) (epos : Option (Nat × Nat))
    (ech : List VNode)
    (hi : sibs.get? i = some (.el ei et eprops elocs epos ech))
    (hx : alookup x elocs = some v)
    (hnd : (List.map Prod.fst elocs).Nodup) :
    envAt sibs env [i] = some (aupd env elocs) ∧
    (∀ q env', NoRebind x (slotKids elocs ech) q →
      envAt sibs env (i :: q) = some env' → alookup x env' = some v) ∧
    (alookup x env = none →
      ∀ j q env', NoRebind x sibs (j :: q) →
        envAt sibs env (j :: q) = some env' → alookup x env' = none) := by
  refine ⟨?_, ?_, ?_⟩
  · rw [envAt, hi]
    rfl
  · intro q env' hnr h
    have h2 : envAt (slotKids elocs ech) (aupd env elocs) q = some env' := by
      rw [envAt, hi] at h
      exact h
    rw [envAt_lookup_pres x q (slotKids elocs ech) (aupd env elocs) env'
      h2 hnr]
    exact alookup_aupd_mem x v env elocs hnd hx
  · intro h0 j q env' hnr h
    rw [envAt_lookup_pres x (j :: q) sibs env env' h hnr]
    exact h0

/-- Concrete sibling sequence for the C7 witness: the first element binds
    x in its locals, the second binds nothing. -/
def c7sibs : List VNode :=
  [.el 7 "div" [] [("x", .vint 1)] none [.text "inner"],
   .el 8 "p" [] [] none []]

/-- C7 witness: at the binding element the environment holds x; along the
    sibling path it does not. -/
theorem context_binding_scoped_to_subtree_witness :
    alookup "x" [("x", Val.vint 1)] = some (Val.vint 1) ∧
    alookup "x" ([] : Ctx) = none := by
  have hc7 := context_binding_scoped_to_subtree c7sibs [] "x" (.vint 1) 0 7
    "div" [] [("x", .vint 1)] none [.text "inner"] rfl rfl (by decide)
  refine ⟨hc7.2.1 [] [("x", Val.vint 1)] trivial rfl, ?_⟩
  refine hc7.2.2 rfl 1 [] [] ?_ rfl
  intro n hn
  have hn' : some (VNode.el 8 "p" [] [] none []) = some n := hn
  rw [← Option.some_inj.mp hn']
  exact ⟨List.not_mem_nil "x", trivial⟩

theorem alookup_aerase_self (k : String) (m : List (String × β)) :
    alookup k (aerase k m) = none := by
  induction m with
  | nil => rfl
  | cons p rest ih =>
    obtain ⟨k', v⟩ := p
    show alookup k (List.filter _ ((k', v) :: rest)) = none
    rw [List.filter_cons]
    by_cases hk : k' = k
    · rw [if_neg (by simp [hk])]
      exact ih
    · rw [if_pos (by simp [hk]), alookup_cons, if_neg hk]
      exact ih

theorem alookup_aerase_ne {x k : String} (h : x ≠ k) (m : List (String × β)) :
    alookup x (aerase k m) = alookup x m := by
  induction m with
  | nil => rfl
  | cons p rest ih =>
    obtain ⟨k', v⟩ := p
    show alookup x (List.filter _ ((k', v) :: rest)) = _
    rw [List.filter_cons]
    by_cases hk : k' = k
    · rw [if_neg (by simp [hk]), alookup_cons,
        if_neg (by intro hh; exact h (hh ▸ hk))]
      exact ih
    · rw [if_pos (by simp [hk]), alookup_cons, alookup_cons]
      by_cases hx : k' = x
      · rw [if_pos hx, if_pos hx]
      · rw [if_neg hx, if_neg hx]
        exact ih

/- ===== v2 loop expander (src/phml/v2/steps/loops.py) =====
   The v2 node model: elements carry an attributes dict (string or bool
   valued), a context dict of embedded-python values, an optional source
   position and children; literals carry a position and text content. The
   v2 nodes module itself is not under src/, so attribute access
   (`"@elif" in el`, `el.get`), `parent.remove` and `parent.insert` with a
   node list are modelled from their call sites in loops.py: membership
   and get read the attributes dict, remove deletes the child, and insert
   splices the list at the index. exec_embedded of the generated
   per-iteration program is an oracle mapping the each-expression and the
   ambient context to the list of per-iteration capture dicts (in
   iteration order) or to the raised exception's message. -/

/-- A v2 attribute value. -/
inductive AVal where
  | s (v : String)
  | b (v : Bool)

/-- The string a v2 attribute value shows to the regex parse. -/
def AVal.str : AVal → String
  | .s v => v
  | .b x => if x then "True" else "False"

/-- A v2 embedded-python value as stored in a context dict. -/
inductive V2Val where
  | vint (n : Int)
  | vstr (v : String)
  | vbool (b : Bool)
  | vnone
  | exc (msg : String)

/-- A v2 context dict. -/
abbrev Ctx2 := List (String × V2Val)

/-- A v2 tree node. `id` models Python object identity. -/
inductive V2Node where
  | el (id : Nat) (tag : String) (attrs : List (String × AVal))
      (ctx : Ctx2) (pos : Option (Nat × Nat)) (children : List V2Node)
  | lit (pos : Option (Nat × Nat)) (content : String)

/-- The oracle for exec_embedded over the generated loop program
    (loops.py lines 91-119): the each-expression and the ambient context
    map to the per-iteration capture dicts in iteration order, or to the
    message of the exception the execution raised. -/
abbrev LoopOracle := String → Ctx2 → Except String (List Ctx2)

/-- Identity of a v2 node; literals carry none. -/
def v2IdOf : V2Node → Option Nat
  | .el i _ _ _ _ _ => some i
  | .lit _ _ => none

/-- The split of re.match(r"(?:for\s*)?(.+) in (.+):?", s): captures and
    source around the last " in " with a nonempty remainder (the greedy
    captures group takes the latest split whose source part is
    nonempty). -/
def lastGoodSplit (pat : List Char) : List Char → Option (List Char × List Char)
  | [] => none
  | c :: rest =>
    match lastGoodSplit pat rest with
    | some (a, b) => some (c :: a, b)
    | none =>
      if pat.isPrefixOf (c :: rest) ∧ (c :: rest).drop pat.length ≠ [] then
        some ([], (c :: rest).drop pat.length)
      else none

/-- Does the loop parse of loops.py lines 75-78 succeed? The optional
    for-prefix group never changes whether the regex matches (a match with
    the prefix consumed induces one on the whole string), so the test is
    the existence of a " in " split with nonempty captures and source. -/
def parseEachOk (s : String) : Bool :=
  match lastGoodSplit [' ', 'i', 'n', ' '] s.toList with
  | some (caps, _) => !caps.isEmpty
  | none => false

/-- gen_new_children (loops.py lines 64-71): deepcopy of the loop's
    children where every element clone has its context updated with the
    iteration's capture dict and every clone's position is cleared. -/
def gen_new_children (ch : List V2Node) (ictx : Ctx2) : List V2Node :=
  ch.map (fun c => match c with
    | .el i tag attrs ctx _pos cch => .el i tag attrs (aupd ctx ictx) none cch
    | .lit _pos s => .lit none s)

/-- _get_fallbacks (loops.py lines 25-37) as a split of the siblings after
    the loop: the run of consecutive element siblings carrying "@elif",
    extended by one "@else"-carrying element when it directly follows the
    run, paired with all remaining siblings. -/
def fallbackSplit : List V2Node → List V2Node × List V2Node
  | [] => ([], [])
  | .el i tag attrs ctx pos ch :: rest =>
    if (alookup "@elif" attrs).isSome then
      ((.el i tag attrs ctx pos ch) :: (fallbackSplit rest).1,
        (fallbackSplit rest).2)
    else if (alookup "@else" attrs).isSome then
      ([.el i tag attrs ctx pos ch], rest)
    else ([], .el i tag attrs ctx pos ch :: rest)
  | n :: rest => ([], n :: rest)

/-- _update_fallbacks (loops.py lines 14-17): record the failure on each
    fallback's context under "_loop_fail_", keeping the rest. -/
def update_fallbacks (msg : String) (after : List V2Node) : List V2Node :=
  (fallbackSplit after).1.map (fun n => match n with
    | .el i tag attrs ctx pos ch =>
      .el i tag attrs (ainsert "_loop_fail_" (V2Val.exc msg) ctx) pos ch
    | n => n) ++ (fallbackSplit after).2

/-- replace_default on the loop's attributes (loops.py lines 39-43): pop
    "@elif" and "@else", then set "@if" to the string "False". -/
def replace_default_attrs (attrs : List (String × AVal)) :
    List (String × AVal) :=
  ainsert "@if" (.s "False") (aerase "@else" (aerase "@elif" attrs))

/-- The For-element test of loops.py lines 57-62: the identity of a
    For-tagged element, none otherwise. -/
def forTagId : V2Node → Option Nat
  | .el i tag _ _ _ _ => if tag = "For" then some i else none
  | .lit _ _ => none

/-- The identities of the For-tagged element children (loops.py lines
    57-62). -/
def forLoopIds (l : List V2Node) : List Nat :=
  l.filterMap forTagId

/-- loop.get(":each", loop.get("each", "")) (loops.py line 77). -/
def eachAttrOf (attrs : List (String × AVal)) : AVal :=
  match alookup ":each" attrs with
  | some v => v
  | none =>
    match alookup "each" attrs with
    | some v => v
    | none => .s ""

/-- Find a child by identity, splitting the sequence around it
    (children.index(loop) plus the surrounding slices). -/
def splitAtId (i : Nat) : List V2Node →
    Option (List V2Node × V2Node × List V2Node)
  | [] => none
  | n :: rest =>
    if v2IdOf n = some i then some ([], n, rest)
    else
      match splitAtId i rest with
      | some (a, m, b) => some (n :: a, m, b)
      | none => none

/-- The try block of loops.py lines 112-130 applied to the exec outcome:
    an exception or zero iterations converts the loop in place into
    @if="False" (elif/else popped) and stamps the failure on the chained
    fallbacks; one or more iterations removes the chained fallbacks and
    replaces the loop with the concatenated iteration clones. -/
def loop_apply (before : List V2Node) (i : Nat) (tag : String)
    (attrs : List (String × AVal)) (ctx : Ctx2) (pos : Option (Nat × Nat))
    (ch : List V2Node) (after : List V2Node) :
    Except String (List Ctx2) → Except String (List V2Node)
  | .error e =>
    .ok (before ++ .el i tag (replace_default_attrs attrs) ctx pos ch ::
      update_fallbacks e after)
  | .ok iters =>
    if iters.length = 0 then
      .ok (before ++ .el i tag (replace_default_attrs attrs) ctx pos ch ::
        update_fallbacks
          "No iterations occured. Expected non empty iterator." after)
    else
      .ok (before ++ iters.flatMap (gen_new_children ch) ++
        (fallbackSplit after).2)

/-- One located For element (loops.py lines 74-130): a parse failure of
    the each attribute raises out of the step; otherwise the exec outcome
    is applied. A bool-valued each attribute also raises in the source
    (TypeError inside re.match); the model reports it as the parse
    failure, an uncaught error either way. -/
def process_loop_found (eo : LoopOracle) (context : Ctx2)
    (before after : List V2Node) : V2Node → Except String (List V2Node)
  | .lit _ _ => .error "loop identity names a literal"
  | .el i tag attrs ctx pos ch =>
    if parseEachOk (eachAttrOf attrs).str then
      loop_apply before i tag attrs ctx pos ch after
        (eo (eachAttrOf attrs).str context)
    else
      .error
        "Expected expression in 'each' attribute for <For/> to be a valid list comprehension."

/-- One For element processed by step_expand_loop_tags: locate it among
    the scope's children and process it in place. -/
def process_loop (eo : LoopOracle) (context : Ctx2)
    (children : List V2Node) (lid : Nat) : Except String (List V2Node) :=
  match splitAtId lid children with
  | none => .error "ValueError: x not in list"
  | some (before, n, after) => process_loop_found eo context before after n

/-- step_expand_loop_tags (loops.py lines 49-130): process every
    For-tagged element child of the scope in order. -/
def step_expand_loop_tags (eo : LoopOracle) (context : Ctx2)
    (children : List V2Node) : Except String (List V2Node) :=
  (forLoopIds children).foldlM (process_loop eo context) children

/-- Modelled from the spec: the v2 Conditional Chain Resolver (the
    conditions step is not under src/), per spec section 4.3: an @if may
    start a chain anywhere; an @elif is legal only right after an
    unresolved @if/@elif and an @else closes a chain; the outcome is
    first-true-wins — the first member whose condition evaluates true is
    kept with the directive attribute stripped and every later chain
    member is dropped without evaluation, an @else being kept exactly when
    no earlier member was true; an @elif/@else without a valid predecessor
    and an element with more than one directive are structural errors.
    `evB` evaluates a condition string against a context. The state is
    none outside a chain, some b inside one with b = some member already
    kept. -/
def spec_resolve_go (evB : String → Ctx2 → Bool) (st : Option Bool) :
    List V2Node → Except String (List V2Node)
  | [] => .ok []
  | .lit pos s :: rest =>
    match spec_resolve_go evB none rest with
    | .ok r => .ok (.lit pos s :: r)
    | .error e => .error e
  | .el i tag attrs ctx pos ch :: rest =>
    match alookup "@if" attrs, alookup "@elif" attrs, alookup "@else" attrs with
    | some v, none, none =>
      if evB v.str ctx then
        match spec_resolve_go evB (some true) rest with
        | .ok r => .ok (.el i tag (aerase "@if" attrs) ctx pos ch :: r)
        | .error e => .error e
      else spec_resolve_go evB (some false) rest
    | none, some v, none =>
      if st = some true then spec_resolve_go evB (some true) rest
      else if st = some false then
        if evB v.str ctx then
          match spec_resolve_go evB (some true) rest with
          | .ok r => .ok (.el i tag (aerase "@elif" attrs) ctx pos ch :: r)
          | .error e => .error e
        else spec_resolve_go evB (some false) rest
      else .error "StructuralError: elif without a preceding if or elif"
    | none, none, some _ =>
      if st = some true then spec_resolve_go evB none rest
      else if st = some false then
        match spec_resolve_go evB none rest with
        | .ok r => .ok (.el i tag (aerase "@else" attrs) ctx pos ch :: r)
        | .error e => .error e
      else .error "StructuralError: else without a preceding if or elif"
    | none, none, none =>
      match spec_resolve_go evB none rest with
      | .ok r => .ok (.el i tag attrs ctx pos ch :: r)
      | .error e => .error e
    | _, _, _ => .error "StructuralError: more than one conditional directive"

/-- Modelled from the spec: resolving starts outside any chain. -/
def spec_resolve_conditions (evB : String → Ctx2 → Bool)
    (children : List V2Node) : Except String (List V2Node) :=
  spec_resolve_go evB none children

/-- Sequences free of conditional directives (they pass the resolver
    unchanged and break chains). -/
def DirFree : List V2Node → Prop
  | [] => True
  | .el _ _ attrs _ _ _ :: rest =>
    alookup "@if" attrs = none ∧ alookup "@elif" attrs = none ∧
    alookup "@else" attrs = none ∧ DirFree rest
  | .lit _ _ :: rest => DirFree rest

theorem spec_resolve_plain_cons (evB : String → Ctx2 → Bool)
    (st : Option Bool) (i : Nat) (tag : String)
    (attrs : List (String × AVal)) (ctx : Ctx2) (pos : Option (Nat × Nat))
    (ch rest : List V2Node) (h1 : alookup "@if" attrs = none)
    (h2 : alookup "@elif" attrs = none) (h3 : alookup "@else" attrs = none) :
    spec_resolve_go evB st (.el i tag attrs ctx pos ch :: rest) =
      match spec_resolve_go evB none rest with
      | .ok r => .ok (.el i tag attrs ctx pos ch :: r)
      | .error e => .error e := by
  rw [spec_resolve_go, h1, h2, h3]

theorem spec_resolve_if_cons (evB : String → Ctx2 → Bool)
    (st : Option Bool) (i : Nat) (tag : String) (v : AVal)
    (attrs : List (String × AVal)) (ctx : Ctx2) (pos : Option (Nat × Nat))
    (ch rest : List V2Node) (hif : alookup "@if" attrs = some v)
    (h2 : alookup "@elif" attrs = none) (h3 : alookup "@else" attrs = none) :
    spec_resolve_go evB st (.el i tag attrs ctx pos ch :: rest) =
      if evB v.str ctx then
        match spec_resolve_go evB (some true) rest with
        | .ok r => .ok (.el i tag (aerase "@if" attrs) ctx pos ch :: r)
        | .error e => .error e
      else spec_resolve_go evB (some false) rest := by
  rw [spec_resolve_go, hif, h2, h3]

theorem spec_resolve_else_cons (evB : String → Ctx2 → Bool) (i : Nat)
    (tag : String) (w : AVal) (attrs : List (String × AVal)) (ctx : Ctx2)
    (pos : Option (Nat × Nat)) (ch rest : List V2Node)
    (h1 : alookup "@if" attrs = none) (h2 : alookup "@elif" attrs = none)
    (helse : alookup "@else" attrs = some w) :
    spec_resolve_go evB (some false) (.el i tag attrs ctx pos ch :: rest) =
      match spec_resolve_go evB none rest with
      | .ok r => .ok (.el i tag (aerase "@else" attrs) ctx pos ch :: r)
      | .error e => .error e := by
  rw [spec_resolve_go, h1, h2, helse]
  rfl

theorem spec_resolve_go_append_plain (evB : String → Ctx2 → Bool)
    (pre : List V2Node) (hpre : DirFree pre) (rest : List V2Node) :
    spec_resolve_go evB none (pre ++ rest) =
      match spec_resolve_go evB none rest with
      | .ok r => .ok (pre ++ r)
      | .error e => .error e := by
  induction pre with
  | nil =>
    rw [List.nil_append]
    cases hr : spec_resolve_go evB none rest with
    | ok r => rfl
    | error e => rfl
  | cons p pre' ih =>
    cases p with
    | el j tg ats ctx pos ch =>
      have h : alookup "@if" ats = none ∧ alookup "@elif" ats = none ∧
          alookup "@else" ats = none ∧ DirFree pre' := hpre
      rw [List.cons_append,
        spec_resolve_plain_cons evB none j tg ats ctx pos ch (pre' ++ rest)
          h.1 h.2.1 h.2.2.1,
        ih h.2.2.2]
      cases hr : spec_resolve_go evB none rest with
      | ok r => rfl
      | error e => rfl
    | lit pos s =>
      have h : DirFree pre' := hpre
      rw [List.cons_append, spec_resolve_go, ih h]
      cases hr : spec_resolve_go evB none rest with
      | ok r => rfl
      | error e => rfl

theorem spec_resolve_go_plain (evB : String → Ctx2 → Bool)
    (post : List V2Node) (h : DirFree post) :
    spec_resolve_go evB none post = .ok post := by
  have hh := spec_resolve_go_append_plain evB post h []
  rw [List.append_nil] at hh
  rw [hh]
  show Except.ok (post ++ []) = Except.ok post
  rw [List.append_nil]

theorem forLoopIds_single (pre after : List V2Node) (lid : Nat)
    (attrs : List (String × AVal)) (lctx : Ctx2)
    (lpos : Option (Nat × Nat)) (lch : List V2Node)
    (hpre : ∀ n ∈ pre, forTagId n = none)
    (hafter : ∀ n ∈ after, forTagId n = none) :
    forLoopIds (pre ++ .el lid "For" attrs lctx lpos lch :: after) =
      [lid] := by
  unfold forLoopIds
  rw [List.filterMap_append, List.filterMap_eq_nil_iff.mpr hpre,
    List.nil_append, List.filterMap_cons]
  have hf : forTagId (V2Node.el lid "For" attrs lctx lpos lch) =
      some lid := rfl
  rw [hf, List.filterMap_eq_nil_iff.mpr hafter]

theorem splitAtId_append (lid : Nat) (pre rest : List V2Node) (n : V2Node)
    (hn : v2IdOf n = some lid)
    (hpre : ∀ m ∈ pre, v2IdOf m ≠ some lid) :
    splitAtId lid (pre ++ n :: rest) = some (pre, n, rest) := by
  induction pre with
  | nil => rw [List.nil_append, splitAtId, if_pos hn]
  | cons p pre' ih =>
    rw [List.cons_append, splitAtId,
      if_neg (hpre p (List.mem_cons_self p pre')),
      ih (fun m hm => hpre m (List.mem_cons_of_mem p hm))]

theorem fallbackSplit_run (fb post : List V2Node) (eid : Nat)
    (etag : String) (eattrs : List (String × AVal)) (ectx : Ctx2)
    (epos : Option (Nat × Nat)) (ech : List V2Node)
    (hfb : ∀ n ∈ fb, ∃ i tg ats c p ch, n = V2Node.el i tg ats c p ch ∧
      (alookup "@elif" ats).isSome = true)
    (helif : alookup "@elif" eattrs = none)
    (helse : (alookup "@else" eattrs).isSome = true) :
    fallbackSplit (fb ++ .el eid etag eattrs ectx epos ech :: post) =
      (fb ++ [.el eid etag eattrs ectx epos ech], post) := by
  induction fb with
  | nil =>
    rw [List.nil_append, fallbackSplit, helif, if_neg (by decide),
      if_pos helse]
    rfl
  | cons q fb' ih =>
    obtain ⟨i, tg, ats, c, p, ch, rfl, hel⟩ :=
      hfb q (List.mem_cons_self q fb')
    rw [List.cons_append, fallbackSplit, if_pos hel,
      ih (fun m hm => hfb m (List.mem_cons_of_mem _ hm))]
    rfl

theorem process_loop_splice (eo : LoopOracle) (context : Ctx2)
    (pre after : List V2Node) (lid : Nat) (attrs : List (String × AVal))
    (lctx : Ctx2) (lpos : Option (Nat × Nat)) (lch : List V2Node)
    (each : String) (ic : Ctx2) (ics : List Ctx2)
    (hpre : ∀ m ∈ pre, v2IdOf m ≠ some lid)
    (heach : eachAttrOf attrs = .s each)
    (hparse : parseEachOk each = true)
    (horacle : eo each context = .ok (ic :: ics)) :
    process_loop eo context
        (pre ++ .el lid "For" attrs lctx lpos lch :: after) lid =
      .ok (pre ++ (ic :: ics).flatMap (gen_new_children lch) ++
        (fallbackSplit after).2) := by
  unfold process_loop
  rw [splitAtId_append lid pre after (.el lid "For" attrs lctx lpos lch)
    rfl hpre]
  show process_loop_found eo context pre after
    (.el lid "For" attrs lctx lpos lch) = _
  rw [process_loop_found, heach]
  have hstr : (AVal.s each).str = each := rfl
  rw [hstr, hparse, if_pos rfl, horacle, loop_apply,
    if_neg (by simp)]

theorem step_single_loop (eo : LoopOracle) (context : Ctx2)
    (children out : List V2Node) (lid : Nat)
    (hids : forLoopIds children = [lid])
    (hpl : process_loop eo context children lid = .ok out) :
    step_expand_loop_tags eo context children = .ok out := by
  unfold step_expand_loop_tags
  rw [hids, List.foldlM_cons, hpl, except_ok_bind, List.foldlM_nil]
  rfl

/-- C10: a For element whose source yields at least one iteration has its
    chained fallback run — the consecutive @elif siblings right after it
    closed by one @else sibling — removed by the loop expander itself
    (_remove_fallbacks, loops.py lines 19-37, called at line 124) before
    the iteration clones are spliced at the loop's position, so the
    fallbacks never reach conditional resolution. -/
theorem successful_loop_removes_fallbacks
    (eo : LoopOracle) (context : Ctx2) (pre fb post : List V2Node)
    (lid : Nat) (attrs : List (String × AVal)) (lctx : Ctx2)
    (lpos : Option (Nat × Nat)) (lch : List V2Node) (each : String)
    (eid : Nat) (etag : String) (eattrs : List (String × AVal))
    (ectx : Ctx2) (epos : Option (Nat × Nat)) (ech : List V2Node)
    (ic : Ctx2) (ics : List Ctx2)
    (hpreF : ∀ n ∈ pre, forTagId n = none)
    (hpreId : ∀ m ∈ pre, v2IdOf m ≠ some lid)
    (hfb : ∀ n ∈ fb, ∃ i tg ats c p ch, n = V2Node.el i tg ats c p ch ∧
      (alookup "@elif" ats).isSome = true ∧ tg ≠ "For")
    (helifE : alookup "@elif" eattrs = none)
    (helseE : (alookup "@else" eattrs).isSome = true)
    (hetag : etag ≠ "For")
    (hpostF : ∀ n ∈ post, forTagId n = none)
    (heach : eachAttrOf attrs = .s each)
    (hparse : parseEachOk each = true)
    (horacle : eo each context = .ok (ic :: ics)) :
    step_expand_loop_tags eo context
        (pre ++ .el lid "For" attrs lctx lpos lch ::
          (fb ++ .el eid etag eattrs ectx epos ech :: post)) =
      .ok (pre ++ (ic :: ics).flatMap (gen_new_children lch) ++ post) := by
  have hafterF : ∀ n ∈ fb ++ .el eid etag eattrs ectx epos ech :: post,
      forTagId n = none := by
    intro n hn
    rcases List.mem_append.mp hn with hn | hn
    · obtain ⟨i, tg, ats, c, p, ch, rfl, _, htg⟩ := hfb n hn
      show (if tg = "For" then some i else none) = none
      rw [if_neg htg]
    · rcases List.mem_cons.mp hn with rfl | hn
      · show (if etag = "For" then some eid else none) = none
        rw [if_neg hetag]
      · exact hpostF n hn
  refine step_single_loop eo context _ _ lid
    (forLoopIds_single pre _ lid attrs lctx lpos lch hpreF hafterF) ?_
  rw [process_loop_splice eo context pre _ lid attrs lctx lpos lch each
    ic ics hpreId heach hparse horacle,
    fallbackSplit_run fb post eid etag eattrs ectx epos ech
      (fun n hn => by
        obtain ⟨i, tg, ats, c, p, ch, rfl, hel, _⟩ := hfb n hn
        exact ⟨i, tg, ats, c, p, ch, rfl, hel⟩)
      helifE helseE]

/-- Oracle for the C10 witness: one iteration binding y to 5. -/
def eoC10 : LoopOracle := fun _ _ => .ok [[("y", .vint 5)]]

/-- Concrete children for the C10 witness: a loop, one chained elif, one
    chained else, one trailing literal. -/
def c10loop : V2Node :=
  .el 1 "For" [(":each", .s "y in ys")] [] none [.lit none "body"]

/-- The chained elif sibling of the C10 witness. -/
def c10elif : V2Node := .el 2 "div" [("@elif", .s "cond")] [] none []

/-- The chained else sibling of the C10 witness. -/
def c10else : V2Node := .el 3 "div" [("@else", .b true)] [] none []

/-- C10 witness: the elif and else fallbacks disappear, the clone and the
    trailing literal remain. -/
theorem successful_loop_removes_fallbacks_witness :
    step_expand_loop_tags eoC10 []
        [c10loop, c10elif, c10else, .lit none "tail"] =
      .ok [.lit none "body", .lit none "tail"] :=
  successful_loop_removes_fallbacks eoC10 [] [] [c10elif]
    [.lit none "tail"] 1 [(":each", .s "y in ys")] [] none
    [.lit none "body"] "y in ys" 3 "div" [("@else", .b true)] [] none []
    [("y", .vint 5)] []
    (fun n hn => absurd hn (List.not_mem_nil n))
    (fun m hm => absurd hm (List.not_mem_nil m))
    (fun n hn => by
      rw [List.mem_singleton.mp hn]
      exact ⟨2, "div", [("@elif", .s "cond")], [], none, [], rfl, rfl,
        by decide⟩)
    rfl rfl (by decide) (fun n hn => by rw [List.mem_singleton.mp hn]; rfl)
    rfl (by decide) rfl

/-- C5: a loop with iteration specification "x in [1,2,3]" over a single
    element child is replaced in its parent's child sequence by exactly
    three clones of that child in iteration order, carrying x = 1, 2, 3
    in their contexts, each with its position cleared; the loop element
    itself is not cloned (gen_new_children clones only loop.children,
    loops.py lines 64-71, 121-128). The oracle hypothesis states what
    exec of `for x in [1,2,3]` yields. -/
theorem loop_expansion_three_clones
    (eo : LoopOracle) (context : Ctx2) (pre post : List V2Node)
    (lid : Nat) (attrs : List (String × AVal)) (lctx : Ctx2)
    (lpos : Option (Nat × Nat)) (ci : Nat) (ctag : String)
    (cattrs : List (String × AVal)) (cctx : Ctx2)
    (cpos : Option (Nat × Nat)) (cch : List V2Node)
    (hpreF : ∀ n ∈ pre, forTagId n = none)
    (hpreId : ∀ m ∈ pre, v2IdOf m ≠ some lid)
    (hpostF : ∀ n ∈ post, forTagId n = none)
    (hsplit : fallbackSplit post = ([], post))
    (heach : eachAttrOf attrs = .s "x in [1,2,3]")
    (horacle : eo "x in [1,2,3]" context =
      .ok [[("x", .vint 1)], [("x", .vint 2)], [("x", .vint 3)]]) :
    step_expand_loop_tags eo context
        (pre ++ .el lid "For" attrs lctx lpos
          [.el ci ctag cattrs cctx cpos cch] :: post) =
      .ok (pre ++
        [.el ci ctag cattrs (aupd cctx [("x", .vint 1)]) none cch,
         .el ci ctag cattrs (aupd cctx [("x", .vint 2)]) none cch,
         .el ci ctag cattrs (aupd cctx [("x", .vint 3)]) none cch] ++
        post) := by
  refine step_single_loop eo context _ _ lid
    (forLoopIds_single pre post lid attrs lctx lpos _ hpreF hpostF) ?_
  rw [process_loop_splice eo context pre post lid attrs lctx lpos
    [.el ci ctag cattrs cctx cpos cch] "x in [1,2,3]"
    [("x", .vint 1)] [[("x", .vint 2)], [("x", .vint 3)]]
    hpreId heach (by decide) horacle, hsplit]
  rfl

/-- Oracle for the C5 witness: the three iterations of x in [1,2,3]. -/
def eoC5 : LoopOracle := fun _ _ =>
  .ok [[("x", .vint 1)], [("x", .vint 2)], [("x", .vint 3)]]

/-- C5 witness: a concrete loop over a single li child. -/
theorem loop_expansion_three_clones_witness :
    step_expand_loop_tags eoC5 []
        [.el 1 "For" [(":each", .s "x in [1,2,3]")] [] (some (3, 1))
          [.el 10 "li" [] [] (some (3, 5)) [.lit (some (3, 9)) "x"]]] =
      .ok [.el 10 "li" [] [("x", .vint 1)] none [.lit (some (3, 9)) "x"],
           .el 10 "li" [] [("x", .vint 2)] none [.lit (some (3, 9)) "x"],
           .el 10 "li" [] [("x", .vint 3)] none [.lit (some (3, 9)) "x"]] :=
  loop_expansion_three_clones eoC5 [] [] [] 1
    [(":each", .s "x in [1,2,3]")] [] (some (3, 1)) 10 "li" [] []
    (some (3, 5)) [.lit (some (3, 9)) "x"]
    (fun n hn => absurd hn (List.not_mem_nil n))
    (fun m hm => absurd hm (List.not_mem_nil m))
    (fun n hn => absurd hn (List.not_mem_nil n))
    rfl rfl rfl

/-- Oracle for the C2 counterexample and witness: an empty iteration. -/
def eoC2 : LoopOracle := fun _ _ => .ok []

/-- The C2 loop: a For element carrying only its ":each" attribute. -/
def c2loop : V2Node :=
  .el 1 "For" [(":each", .s "x in xs")] [] none [.lit none "item"]

/-- The C2 chained else sibling. -/
def c2else : V2Node := .el 2 "div" [("@else", .b true)] [] none []

/-- C2 counterexample: converting a zero-iteration loop pops only "@elif"
    and "@else" and sets "@if" to "False" (loops.py lines 41-43) — the
    loop's own ":each" iteration attribute is retained on the converted
    node, so the claim's "its loop/elif/else attributes removed" fails for
    the loop attribute. -/
theorem loop_fallback_conversion_counterexample :
    step_expand_loop_tags eoC2 [] [c2loop, c2else] =
      .ok [.el 1 "For" [(":each", .s "x in xs"), ("@if", .s "False")] []
            none [.lit none "item"],
           .el 2 "div" [("@else", .b true)]
            [("_loop_fail_",
              .exc "No iterations occured. Expected non empty iterator.")]
            none []] ∧
    alookup ":each" [(":each", AVal.s "x in xs"), ("@if", AVal.s "False")] =
      some (.s "x in xs") :=
  ⟨rfl, rfl⟩

/-- C2 (amended): a zero-iteration or failing source converts the loop in
    place into a permanently-false conditional — "@elif" and "@else" are
    popped and "@if" is set to the string "False", while the ":each"
    iteration attribute is retained — and the failure reason is recorded
    under "_loop_fail_" in the context of the chained else sibling; the
    conditional resolution of spec section 4.3 (modelled from the spec,
    its v2 step is not under src/) then drops the converted loop and
    keeps the else branch with its directive stripped. -/
theorem loop_fallback_protocol
    (eo : LoopOracle) (evB : String → Ctx2 → Bool) (context : Ctx2)
    (pre post : List V2Node) (lid : Nat) (attrs : List (String × AVal))
    (lctx : Ctx2) (lpos : Option (Nat × Nat)) (lch : List V2Node)
    (each msg : String) (eid : Nat) (etag : String)
    (eattrs : List (String × AVal)) (ectx : Ctx2)
    (epos : Option (Nat × Nat)) (ech : List V2Node)
    (hpreF : ∀ n ∈ pre, forTagId n = none)
    (hpreId : ∀ m ∈ pre, v2IdOf m ≠ some lid)
    (hpreD : DirFree pre)
    (hifE : alookup "@if" eattrs = none)
    (helifE : alookup "@elif" eattrs = none)
    (helseE : (alookup "@else" eattrs).isSome = true)
    (hetag : etag ≠ "For")
    (hpostF : ∀ n ∈ post, forTagId n = none)
    (hpostD : DirFree post)
    (heach : eachAttrOf attrs = .s each)
    (hparse : parseEachOk each = true)
    (hfail : eo each context = .ok [] ∧
        msg = "No iterations occured. Expected non empty iterator." ∨
      eo each context = .error msg)
    (hFalse : evB "False" lctx = false) :
    step_expand_loop_tags eo context
        (pre ++ .el lid "For" attrs lctx lpos lch ::
          .el eid etag eattrs ectx epos ech :: post) =
      .ok (pre ++
        .el lid "For" (replace_default_attrs attrs) lctx lpos lch ::
        .el eid etag eattrs (ainsert "_loop_fail_" (.exc msg) ectx)
          epos ech :: post) ∧
    alookup ":each" (replace_default_attrs attrs) =
      alookup ":each" attrs ∧
    alookup "@if" (replace_default_attrs attrs) = some (.s "False") ∧
    alookup "@elif" (replace_default_attrs attrs) = none ∧
    alookup "@else" (replace_default_attrs attrs) = none ∧
    spec_resolve_conditions evB
        (pre ++
          .el lid "For" (replace_default_attrs attrs) lctx lpos lch ::
          .el eid etag eattrs (ainsert "_loop_fail_" (.exc msg) ectx)
            epos ech :: post) =
      .ok (pre ++ .el eid etag (aerase "@else" eattrs)
        (ainsert "_loop_fail_" (.exc msg) ectx) epos ech :: post) := by
  have hif' : alookup "@if" (replace_default_attrs attrs) =
      some (.s "False") := by
    unfold replace_default_attrs
    rw [alookup_ainsert, if_pos rfl]
  have helif' : alookup "@elif" (replace_default_attrs attrs) = none := by
    unfold replace_default_attrs
    rw [alookup_ainsert, if_neg (by decide),
      alookup_aerase_ne (by decide), alookup_aerase_self]
  have helse' : alookup "@else" (replace_default_attrs attrs) = none := by
    unfold replace_default_attrs
    rw [alookup_ainsert, if_neg (by decide), alookup_aerase_self]
  have hce : alookup ":each" (replace_default_attrs attrs) =
      alookup ":each" attrs := by
    unfold replace_default_attrs
    rw [alookup_ainsert, if_neg (by decide),
      alookup_aerase_ne (by decide), alookup_aerase_ne (by decide)]
  have hsplitE : fallbackSplit
      (.el eid etag eattrs ectx epos ech :: post) =
      ([.el eid etag eattrs ectx epos ech], post) :=
    fallbackSplit_run [] post eid etag eattrs ectx epos ech
      (fun n hn => absurd hn (List.not_mem_nil n)) helifE helseE
  have hupd : update_fallbacks msg
      (.el eid etag eattrs ectx epos ech :: post) =
      .el eid etag eattrs (ainsert "_loop_fail_" (.exc msg) ectx)
        epos ech :: post := by
    unfold update_fallbacks
    rw [hsplitE]
    rfl
  have hafterF : ∀ n ∈ .el eid etag eattrs ectx epos ech :: post,
      forTagId n = none := by
    intro n hn
    rcases List.mem_cons.mp hn with rfl | hn
    · show (if etag = "For" then some eid else none) = none
      rw [if_neg hetag]
    · exact hpostF n hn
  have hstep : step_expand_loop_tags eo context
      (pre ++ .el lid "For" attrs lctx lpos lch ::
        .el eid etag eattrs ectx epos ech :: post) =
      .ok (pre ++
        .el lid "For" (replace_default_attrs attrs) lctx lpos lch ::
        .el eid etag eattrs (ainsert "_loop_fail_" (.exc msg) ectx)
          epos ech :: post) := by
    refine step_single_loop eo context _ _ lid
      (forLoopIds_single pre _ lid attrs lctx lpos lch hpreF hafterF) ?_
    unfold process_loop
    rw [splitAtId_append lid pre _ (.el lid "For" attrs lctx lpos lch)
      rfl hpreId]
    show process_loop_found eo context pre
      (.el eid etag eattrs ectx epos ech :: post)
      (.el lid "For" attrs lctx lpos lch) = _
    rw [process_loop_found, heach]
    rw [show (AVal.s each).str = each from rfl, hparse, if_pos rfl]
    rcases hfail with ⟨hok, rfl⟩ | herr
    · rw [hok, loop_apply, hupd]
      rfl
    · rw [herr, loop_apply, hupd]
  obtain ⟨w, hw⟩ := Option.isSome_iff_exists.mp helseE
  have hchain : spec_resolve_go evB none
      (.el lid "For" (replace_default_attrs attrs) lctx lpos lch ::
        .el eid etag eattrs (ainsert "_loop_fail_" (.exc msg) ectx)
          epos ech :: post) =
      .ok (.el eid etag (aerase "@else" eattrs)
        (ainsert "_loop_fail_" (.exc msg) ectx) epos ech :: post) := by
    rw [spec_resolve_if_cons evB none lid "For" (.s "False")
      (replace_default_attrs attrs) lctx lpos lch _ hif' helif' helse']
    rw [show AVal.str (AVal.s "False") = "False" from rfl, hFalse]
    show spec_resolve_go evB (some false)
      (.el eid etag eattrs (ainsert "_loop_fail_" (.exc msg) ectx)
        epos ech :: post) = _
    rw [spec_resolve_else_cons evB eid etag w eattrs
      (ainsert "_loop_fail_" (.exc msg) ectx) epos ech post hifE helifE hw,
      spec_resolve_go_plain evB post hpostD]
  refine ⟨hstep, hce, hif', helif', helse', ?_⟩
  unfold spec_resolve_conditions
  rw [spec_resolve_go_append_plain evB pre hpreD _, hchain]

/-- Condition evaluator for the C2 witness: true exactly on "True". -/
def evBC2 : String → Ctx2 → Bool := fun s _ => decide (s = "True")

/-- C2 amended-theorem witness: the counterexample's tree pushed through
    the step and the resolver — the converted loop is dropped and the
    else branch survives stripped. -/
theorem loop_fallback_protocol_witness :
    spec_resolve_conditions evBC2
        [.el 1 "For" (replace_default_attrs [(":each", .s "x in xs")]) []
          none [.lit none "item"],
         .el 2 "div" [("@else", .b true)]
          (ainsert "_loop_fail_"
            (.exc "No iterations occured. Expected non empty iterator.")
            []) none []] =
      .ok [.el 2 "div" (aerase "@else" [("@else", AVal.b true)])
        (ainsert "_loop_fail_"
          (.exc "No iterations occured. Expected non empty iterator.")
          []) none []] :=
  (loop_fallback_protocol eoC2 evBC2 [] [] [] 1
    [(":each", .s "x in xs")] [] none [.lit none "item"] "x in xs"
    "No iterations occured. Expected non empty iterator." 2 "div"
    [("@else", .b true)] [] none []
    (fun n hn => absurd hn (List.not_mem_nil n))
    (fun m hm => absurd hm (List.not_mem_nil m))
    trivial rfl rfl rfl (by decide)
    (fun n hn => absurd hn (List.not_mem_nil n))
    trivial rfl (by decide) (Or.inl ⟨rfl, rfl⟩) rfl).2.2.2.2.2

/-- HypertextMarkupCompiler.compile (compiler/__init__.py lines 174-198)
    as it affects trees: after `self.results = {}` the method's first
    action on the tree is `node = deepcopy(node)` (line 180), and the
    python-element collection, the pre steps, _process_scope_ and the
    post steps all receive that copy, which is returned. `clone` is the
    deepcopy and `steps` the composed pipeline; the pair holds the
    caller's tree as the call leaves it alongside the returned tree. -/
def hypertext_compile (clone steps : List V2Node → List V2Node)
    (children : List V2Node) : List V2Node × List V2Node :=
  (children, steps (clone children))

/-- replace_components' use of the component registry (compile.py lines
    265-304): the loop reads components.items() (line 265) and
    components[curr_node.tag]["python"/"script"/"style"] (lines 298-300),
    takes rnode as a deepcopy of value["component"] (line 284) so every
    later in-place edit reaches the copy, and never assigns into the
    registry — its only assignments target new_props, props, rnode and
    curr_node.parent.children. The pair holds the registry as the pass
    leaves it alongside the substituted children. -/
def replace_components_with_registry (ev : Evaluator) (pvb : Subst)
    (vpl kwargs : Ctx) (fuel : Nat) (comps : List (String × CompEntry))
    (children : List VNode) :
    List (String × CompEntry) × List VNode :=
  (comps, replace_components ev pvb vpl kwargs fuel comps children)

/-- C4 (amended): the clone discipline of the compile entry points.
    HypertextMarkupCompiler.compile deepcopies its input before any step
    runs, so the caller's tree is left unchanged; replace_components only
    reads the component registry and substitutes a deepcopy of the
    template element, so every registered entry is left unchanged; the v1
    Compiler.compile, however, mutates the caller's tree in exactly one
    case — a tree without a doctype child receives a DocType node at
    position 0 of the caller's own child sequence (compile.py lines
    122-124) before __html's private deepcopy (line 143), and a tree
    already holding a doctype child is left unchanged. -/
theorem compile_clone_discipline
    (clone steps : List V2Node → List V2Node) (v2children : List V2Node)
    (ev : Evaluator) (pvb : Subst) (vpl kwargs : Ctx) (fuel : Nat)
    (comps : List (String × CompEntry)) (vchildren : List VNode)
    (children : List VNode) :
    (hypertext_compile clone steps v2children).1 = v2children ∧
    (replace_components_with_registry ev pvb vpl kwargs fuel comps
      vchildren).1 = comps ∧
    (VNode.doctype ∈ children → compile_caller_tree children = children) ∧
    (VNode.doctype ∉ children →
      compile_caller_tree children = VNode.doctype :: children) := by
  refine ⟨rfl, rfl, fun h => compile_caller_tree_effect children h,
    fun h => ?_⟩
  have hnil : children.filter (fun n => isDocTypeNode n) = [] := by
    rw [List.filter_eq_nil_iff]
    intro a ha
    cases a with
    | el i tag props locs pos ch => exact fun hh => Bool.noConfusion hh
    | text v => exact fun hh => Bool.noConfusion hh
    | comment v => exact fun hh => Bool.noConfusion hh
    | doctype => exact absurd ha h
  unfold compile_caller_tree
  rw [hnil]
  rfl

/-- C4 amended-theorem witness: a v2 tree and a registry passing through
    unchanged, a doctype-bearing tree left as is, and a doctype-less tree
    receiving the DocType at position 0. -/
theorem compile_clone_discipline_witness :
    (hypertext_compile id id [V2Node.lit none "t"]).1 =
      [V2Node.lit none "t"] ∧
    (replace_components_with_registry evC3 sbC3 [] [] 1
      [("cmpt", c3entry)] []).1 = [("cmpt", c3entry)] ∧
    compile_caller_tree [VNode.doctype] = [VNode.doctype] ∧
    compile_caller_tree [VNode.text "hi"] =
      [VNode.doctype, VNode.text "hi"] :=
  ⟨(compile_clone_discipline id id [V2Node.lit none "t"] evC3 sbC3 [] [] 1
      [("cmpt", c3entry)] [] [VNode.doctype]).1,
   (compile_clone_discipline id id [V2Node.lit none "t"] evC3 sbC3 [] [] 1
      [("cmpt", c3entry)] [] [VNode.doctype]).2.1,
   (compile_clone_discipline id id [V2Node.lit none "t"] evC3 sbC3 [] [] 1
      [("cmpt", c3entry)] [] [VNode.doctype]).2.2.1
      (List.mem_cons_self _ _),
   (compile_clone_discipline id id [V2Node.lit none "t"] evC3 sbC3 [] [] 1
      [("cmpt", c3entry)] [] [VNode.text "hi"]).2.2.2
      (fun hh => VNode.noConfusion (List.mem_singleton.mp hh))⟩

end Phml
